import Mathlib

/-!
Verification development for the firewall-log analyser
(`FirewallParser.py`, class `FirewallAnalyzer`).

The embedding models IPv4 addresses as natural numbers below `2^32` and
IPv4 networks as a base address plus a prefix length, mirroring the parts
of Python's `ipaddress` standard library that the analyser calls
(`ip_network`, `collapse_addresses`, `subnet_of`, `supernet`).  Frequency
tables (pandas `Series`) are modelled as ordered association lists of
(key, count) pairs, and float arithmetic on coverage fractions is modelled
exactly over `ℚ`.
-/

/-- An IPv4 network: base address and prefix length, mirroring
`ipaddress.IPv4Network` (`network_address`, `prefixlen`). -/
structure Net where
  addr : Nat
  plen : Nat
deriving DecidableEq

/-- The value `network_address + (2^(32-plen) - 1)`, i.e. `broadcast_address`. -/
def Net.broadcast (n : Net) : Nat := n.addr + 2 ^ (32 - n.plen) - 1

/-- Well-formedness of an IPv4 network as `ipaddress` guarantees it:
address fits in 32 bits, prefix length is at most 32, and no host bits
are set (strict networks). -/
def Net.valid (n : Net) : Prop :=
  n.addr < 2 ^ 32 ∧ n.plen ≤ 32 ∧ n.addr % 2 ^ (32 - n.plen) = 0

instance (n : Net) : Decidable n.valid := by unfold Net.valid; infer_instance

/-- Models `a.subnet_of(b)` from `ipaddress._is_subnet_of`:
`b.network_address <= a.network_address and b.broadcast_address >= a.broadcast_address`. -/
def SubnetOf (a b : Net) : Prop := b.addr ≤ a.addr ∧ a.broadcast ≤ b.broadcast

instance (a b : Net) : Decidable (SubnetOf a b) := by unfold SubnetOf; infer_instance

/-- Models `net.supernet()` (equivalently `net.supernet(new_prefix=net.prefixlen-1)`):
for prefix length 0 it returns the network itself, otherwise the enclosing
network one bit shorter, with the new host bits cleared
(`network_address & (netmask << 1)`, written arithmetically). -/
def supernetOf (n : Net) : Net :=
  if n.plen = 0 then n
  else ⟨n.addr - n.addr % 2 ^ (32 - (n.plen - 1)), n.plen - 1⟩

theorem subnetOf_refl (a : Net) : SubnetOf a a := ⟨le_refl _, le_refl _⟩

theorem subnetOf_trans {a b c : Net} (h1 : SubnetOf a b) (h2 : SubnetOf b c) :
    SubnetOf a c := ⟨le_trans h2.1 h1.1, le_trans h1.2 h2.2⟩

theorem supernetOf_plen_le (n : Net) : (supernetOf n).plen ≤ n.plen := by
  unfold supernetOf
  split
  · exact le_refl _
  · show n.plen - 1 ≤ n.plen
    omega

theorem valid_plen_zero {n : Net} (hv : n.valid) (h0 : n.plen = 0) : n.addr = 0 := by
  obtain ⟨h1, _, ha⟩ := hv
  rw [h0] at ha
  rwa [Nat.sub_zero, Nat.mod_eq_of_lt h1] at ha

theorem broadcast_lt {n : Net} (hv : n.valid) : n.broadcast < 2 ^ 32 := by
  obtain ⟨h1, h2, h3⟩ := hv
  have hdvd : 2 ^ (32 - n.plen) ∣ n.addr := Nat.dvd_of_mod_eq_zero h3
  rcases hdvd with ⟨q, hq⟩
  have hpos : 0 < (2:Nat) ^ (32 - n.plen) := Nat.pos_pow_of_pos _ (by norm_num)
  -- addr + block ≤ 2^32 because addr is a multiple of the block size
  have hkey : n.addr + 2 ^ (32 - n.plen) ≤ 2 ^ 32 := by
    rw [hq]
    have hq1 : q < 2 ^ 32 / 2 ^ (32 - n.plen) := by
      have h32 : (2:Nat) ^ 32 = 2 ^ (32 - n.plen) * 2 ^ n.plen := by
        rw [← pow_add]; congr 1; omega
      have hlt : 2 ^ (32 - n.plen) * q < 2 ^ (32 - n.plen) * 2 ^ n.plen := by
        rw [← h32, ← hq]; exact h1
      have := Nat.lt_of_mul_lt_mul_left hlt
      rw [h32, Nat.mul_div_cancel_left _ hpos]
      exact this
    calc 2 ^ (32 - n.plen) * q + 2 ^ (32 - n.plen)
        = 2 ^ (32 - n.plen) * (q + 1) := by ring
      _ ≤ 2 ^ (32 - n.plen) * (2 ^ 32 / 2 ^ (32 - n.plen)) :=
          Nat.mul_le_mul_left _ hq1
      _ ≤ 2 ^ 32 := Nat.mul_div_le _ _
  show n.addr + 2 ^ (32 - n.plen) - 1 < 2 ^ 32
  omega

/-- Every valid network is a subnet of `0.0.0.0/0`. -/
theorem subnetOf_zero {n : Net} (hv : n.valid) : SubnetOf n ⟨0, 0⟩ := by
  refine ⟨Nat.zero_le _, ?_⟩
  have hb := broadcast_lt hv
  show n.broadcast ≤ 0 + 2 ^ (32 - 0) - 1
  omega

theorem supernetOf_valid {n : Net} (hv : n.valid) : (supernetOf n).valid := by
  obtain ⟨h1, h2, h3⟩ := hv
  unfold supernetOf
  split
  · exact ⟨h1, h2, h3⟩
  · rename_i hp
    refine ⟨?_, ?_, ?_⟩
    · show n.addr - n.addr % 2 ^ (32 - (n.plen - 1)) < 2 ^ 32
      have := Nat.sub_le n.addr (n.addr % 2 ^ (32 - (n.plen - 1)))
      omega
    · show n.plen - 1 ≤ 32
      omega
    · show (n.addr - n.addr % 2 ^ (32 - (n.plen - 1))) % 2 ^ (32 - (n.plen - 1)) = 0
      have hmd := Nat.mod_add_div n.addr (2 ^ (32 - (n.plen - 1)))
      have heq : n.addr - n.addr % 2 ^ (32 - (n.plen - 1))
          = 2 ^ (32 - (n.plen - 1)) * (n.addr / 2 ^ (32 - (n.plen - 1))) := by omega
      rw [heq, Nat.mul_mod_right]

/-- A valid network is contained in its immediate supernet. -/
theorem subnetOf_supernetOf {n : Net} (hv : n.valid) : SubnetOf n (supernetOf n) := by
  obtain ⟨h1, h2, h3⟩ := hv
  unfold supernetOf
  split
  · exact subnetOf_refl n
  · rename_i hp
    constructor
    · exact Nat.sub_le _ _
    · show n.addr + 2 ^ (32 - n.plen) - 1 ≤
        (n.addr - n.addr % 2 ^ (32 - (n.plen - 1))) + 2 ^ (32 - (n.plen - 1)) - 1
      have hexp : 32 - (n.plen - 1) = (32 - n.plen) + 1 := by omega
      set B := 2 ^ (32 - n.plen) with hB
      have h2B : 2 ^ (32 - (n.plen - 1)) = B * 2 := by
        rw [hexp, pow_succ]
      have hdvd : B ∣ n.addr := Nat.dvd_of_mod_eq_zero h3
      rcases hdvd with ⟨q, hq⟩
      have hmod : n.addr % (B * 2) = B * (q % 2) := by
        rw [hq, Nat.mul_mod_mul_left]
      have hBpos : 0 < B := Nat.pos_pow_of_pos _ (by norm_num)
      have hle : n.addr % (B * 2) ≤ B := by
        rw [hmod]
        have hq2 : q % 2 ≤ 1 := by omega
        calc B * (q % 2) ≤ B * 1 := Nat.mul_le_mul_left _ hq2
          _ = B := Nat.mul_one _
      rw [h2B]
      have := Nat.mod_le n.addr (B * 2)
      omega

/-! Section: IPv4 string parsing (the `ipaddress.ip_network` entry point)

Parsing failures are Python `ValueError`s, modelled as `none`.  The model
covers the IPv4 forms the analyser feeds in: dotted-quad addresses, an
optional `/len` with a decimal prefix length or a dotted netmask/hostmask,
and the strict host-bits check of `ip_network`.
-/

/-- Models `str.split(sep)` for a single-character separator: split at every
occurrence, preserving empty pieces.  (Implemented over the character
list; Lean's own `String.splitOn` matches this but does not reduce.) -/
def splitChar (c : Char) : List Char → List (List Char)
  | [] => [[]]
  | x :: xs =>
    if x = c then [] :: splitChar c xs
    else
      match splitChar c xs with
      | [] => [[x]]
      | p :: ps => (x :: p) :: ps

/-- Models `s.split(c)` producing strings. -/
def splitOnChar (c : Char) (s : String) : List String :=
  (splitChar c s.data).map String.mk

/-- Models `int(s, 10)` on an all-digits string. -/
def digitsVal (l : List Char) : Nat :=
  l.foldl (fun n ch => n * 10 + (ch.toNat - 48)) 0

/-- One dotted-quad octet, per `ipaddress._parse_octet`: non-empty, ASCII
digits only, at most 3 characters, no leading zero, value at most 255. -/
def parseOctet (s : String) : Option Nat :=
  if s = "" then none
  else if ¬ (s.toList.all Char.isDigit) then none
  else if 3 < s.length then none
  else if s.toList.head? = some '0' ∧ s.length ≠ 1 then none
  else if digitsVal s.data ≤ 255 then some (digitsVal s.data) else none

/-- Models `ipaddress._ip_int_from_string`: exactly four octets joined by dots. -/
def parseV4 (s : String) : Option Nat :=
  match splitOnChar '.' s with
  | [a, b, c, d] =>
    match parseOctet a, parseOctet b, parseOctet c, parseOctet d with
    | some x, some y, some z, some w => some (((x * 256 + y) * 256 + z) * 256 + w)
    | _, _, _, _ => none
  | _ => none

/-- The integer netmask for a prefix length. -/
def netmaskInt (k : Nat) : Nat := 2 ^ 32 - 2 ^ (32 - k)

/-- The decimal-digits form of a prefix length
(`ipaddress._prefix_from_prefix_string`): non-empty ASCII digits, value
at most 32. -/
def parsePlenDigits (p : String) : Option Nat :=
  if p ≠ "" ∧ p.toList.all Char.isDigit then
    if digitsVal p.data ≤ 32 then some (digitsVal p.data) else none
  else none

/-- Models `ipaddress._make_netmask` for a string argument: a decimal prefix
length 0..32, or else a dotted-quad netmask (leading ones) or hostmask
(trailing ones). -/
def parsePlen (p : String) : Option Nat :=
  match parsePlenDigits p with
  | some n => some n
  | none =>
    match parseV4 p with
    | none => none
    | some m =>
      match (List.range 33).find? (fun k => decide (m = netmaskInt k)) with
      | some k => some k
      | none => (List.range 33).find? (fun k => decide (m ^^^ (2 ^ 32 - 1) = netmaskInt k))

/-- Models `ipaddress.ip_network(s)` (strict): at most one `/`; a missing prefix
means `/32`; host bits set is a `ValueError`. -/
def ipNetworkOfString (s : String) : Option Net :=
  match splitOnChar '/' s with
  | [a] =>
    match parseV4 a with
    | some ip => some ⟨ip, 32⟩
    | none => none
  | [a, p] =>
    match parseV4 a, parsePlen p with
    | some ip, some pl =>
      if ip % 2 ^ (32 - pl) = 0 then some ⟨ip, pl⟩ else none
    | _, _ => none
  | _ => none

/-- The per-element parse in `_supernet`:
`ip_network(ip) if '/' in ip else ip_network(ip + '/32')`. -/
def parseInput (s : String) : Option Net :=
  if s.data.contains '/' then ipNetworkOfString s
  else ipNetworkOfString (s ++ "/32")

/-- Models `str(network)`: dotted quad of the base address plus `/prefixlen`. -/
def netToStr (n : Net) : String :=
  toString (n.addr / 2 ^ 24 % 256) ++ "." ++ toString (n.addr / 2 ^ 16 % 256) ++ "."
    ++ toString (n.addr / 2 ^ 8 % 256) ++ "." ++ toString (n.addr % 256)
    ++ "/" ++ toString n.plen

theorem parseOctet_le {s : String} {v : Nat} (h : parseOctet s = some v) : v ≤ 255 := by
  unfold parseOctet at h
  split at h
  · exact absurd h (by simp)
  · split at h
    · exact absurd h (by simp)
    · split at h
      · exact absurd h (by simp)
      · split at h
        · exact absurd h (by simp)
        · split at h
          · rename_i hle
            simp at h
            omega
          · exact absurd h (by simp)

theorem parseV4_lt {s : String} {v : Nat} (h : parseV4 s = some v) : v < 2 ^ 32 := by
  unfold parseV4 at h
  split at h
  · rename_i a b c d heq
    split at h
    · rename_i x y z w hx hy hz hw
      have h1 := parseOctet_le hx
      have h2 := parseOctet_le hy
      have h3 := parseOctet_le hz
      have h4 := parseOctet_le hw
      simp at h
      omega
    · exact absurd h (by simp)
  · exact absurd h (by simp)

theorem parsePlen_le {s : String} {k : Nat} (h : parsePlen s = some k) : k ≤ 32 := by
  unfold parsePlen at h
  split at h
  · rename_i n hn
    simp at h
    subst h
    unfold parsePlenDigits at hn
    split at hn
    · split at hn
      · simp at hn
        omega
      · exact absurd hn (by simp)
    · exact absurd hn (by simp)
  · split at h
    · exact absurd h (by simp)
    · split at h
      · rename_i k2 hk2
        simp at h
        subst h
        have hmem := List.mem_of_find?_eq_some hk2
        exact Nat.lt_succ_iff.1 (List.mem_range.1 hmem)
      · have hmem := List.mem_of_find?_eq_some h
        exact Nat.lt_succ_iff.1 (List.mem_range.1 hmem)

/-- Every network produced by the parser is valid. -/
theorem ipNetworkOfString_valid {s : String} {n : Net}
    (h : ipNetworkOfString s = some n) : n.valid := by
  unfold ipNetworkOfString at h
  split at h
  · split at h
    · rename_i ip hip
      simp at h
      subst h
      exact ⟨parseV4_lt hip, le_refl 32, Nat.mod_one ip⟩
    · exact absurd h (by simp)
  · split at h
    · rename_i ip pl hip hpl
      split at h
      · rename_i hmod
        simp at h
        subst h
        exact ⟨parseV4_lt hip, parsePlen_le hpl, hmod⟩
      · exact absurd h (by simp)
    · exact absurd h (by simp)
  · exact absurd h (by simp)

theorem parseInput_valid {s : String} {n : Net}
    (h : parseInput s = some n) : n.valid := by
  unfold parseInput at h
  split at h <;> exact ipNetworkOfString_valid h

/-! Section: the `ipaddress.collapse_addresses` model

The library routine used by `_supernet`: /32 inputs are treated as bare
addresses, sorted and deduplicated, consecutive runs are summarised into
CIDR blocks (`_find_address_range` + `summarize_address_range`), and the
result is merged with the remaining networks by repeatedly fusing sibling
pairs into their parent (`_collapse_addresses_internal`), finally sorted
and filtered for containment in the previously emitted network.
-/

/-- Number of trailing zero bits of a positive number (`tz 0 = 0`). -/
def tz (n : Nat) : Nat :=
  if n = 0 ∨ n % 2 = 1 then 0 else tz (n / 2) + 1
termination_by n
decreasing_by
  rename_i h
  simp at h
  omega

/-- Models `ipaddress._count_righthand_zero_bits(number, bits)`: the number of
zero bits on the right-hand side of `number`, capped at `bits` (computed
in CPython as `min(bits, (~number & (number-1)).bit_length())`). -/
def countRighthandZeroBits (number bits : Nat) : Nat :=
  if number = 0 then bits else min bits (tz number)

theorem tz_dvd (n : Nat) : 2 ^ tz n ∣ n := by
  induction n using tz.induct with
  | case1 n h =>
    unfold tz
    rw [if_pos h]
    rcases h with h | h
    · simp [h]
    · simpa using Nat.dvd_refl 1 |>.trans (one_dvd n)
  | case2 n h ih =>
    unfold tz
    rw [if_neg h]
    simp only [not_or] at h
    have h2 : n % 2 = 0 := by omega
    have h3 : n / 2 * 2 = n := by omega
    have h4 : (2:Nat) ^ tz (n / 2) * 2 ∣ n / 2 * 2 := mul_dvd_mul_right ih 2
    rw [h3] at h4
    rw [pow_succ]
    exact h4

theorem crzb_le_tz {number bits : Nat} (h : number ≠ 0) :
    2 ^ countRighthandZeroBits number bits ∣ number := by
  unfold countRighthandZeroBits
  rw [if_neg h]
  exact dvd_trans (pow_dvd_pow 2 (min_le_right _ _)) (tz_dvd number)

theorem crzb_le_bits (number bits : Nat) : countRighthandZeroBits number bits ≤ bits := by
  unfold countRighthandZeroBits
  split
  · exact le_refl _
  · exact min_le_left _ _

/-- Models `ipaddress.summarize_address_range(first, last)` specialised to IPv4:
emit the largest aligned block starting at `first` that fits inside the
range, then continue after it.  (The CPython `ALL_ONES` break guards
machine-independent overflow and is vacuous over `Nat`.) -/
def summarizeAddressRange (first last : Nat) : List Net :=
  if h : first ≤ last then
    let nbits := min (countRighthandZeroBits first 32) (Nat.size (last - first + 1) - 1)
    ⟨first, 32 - nbits⟩ :: summarizeAddressRange (first + 2 ^ nbits) last
  else []
termination_by last + 1 - first
decreasing_by
  have hp : 0 < 2 ^ min (countRighthandZeroBits first 32) (Nat.size (last - first + 1) - 1) :=
    Nat.pos_pow_of_pos _ (by norm_num)
  omega

/-- The `while` run-detection in `ipaddress._find_address_range`,
accumulating maximal consecutive runs. -/
def findRangesGo (first last : Nat) : List Nat → List (Nat × Nat)
  | [] => [(first, last)]
  | y :: ys =>
    if y = last + 1 then findRangesGo first y ys
    else (first, last) :: findRangesGo y y ys

/-- Models `ipaddress._find_address_range`: maximal runs of consecutive
addresses in a sorted list. -/
def findAddressRange : List Nat → List (Nat × Nat)
  | [] => []
  | x :: xs => findRangesGo x x xs

/-- Association-list lookup used to model the `subnets` dict. -/
def lookupA (k : Net) (l : List (Net × Net)) : Option Net :=
  (l.find? (fun p => p.1 = k)).map (·.2)

/-- Models `del subnets[key]`. -/
def eraseA (k : Net) (l : List (Net × Net)) : List (Net × Net) :=
  l.filter (fun p => ¬ p.1 = k)

/-- Weight of the `to_merge` stack for termination. -/
def stackW (l : List Net) : Nat := (l.map (fun n => n.plen + 1)).sum

/-- Weight of the `subnets` dict for termination. -/
def dictW (l : List (Net × Net)) : Nat := (l.map (fun kv => kv.2.plen + 1)).sum

theorem eraseA_dictW_lt {k : Net} {l : List (Net × Net)} {v : Net}
    (h : lookupA k l = some v) : dictW (eraseA k l) < dictW l := by
  induction l with
  | nil => simp [lookupA] at h
  | cons a t ih =>
    by_cases hk : a.1 = k
    · have hsub : dictW (eraseA k t) ≤ dictW t := by
        unfold dictW eraseA
        exact List.Sublist.sum_le_sum
          ((List.filter_sublist t).map (fun kv => kv.2.plen + 1)) (by simp)
      unfold eraseA dictW at *
      simp [hk] at *
      omega
    · unfold lookupA at h ih
      rw [List.find?_cons_of_neg _ (by simpa using hk)] at h
      have := ih h
      unfold eraseA dictW at *
      simp [hk] at *
      omega

/-- Models the merge loop of `ipaddress._collapse_addresses_internal`.  `tm` is the
`to_merge` stack with its top first (CPython pops from the end of the
list and pushes merged parents back there), `sn` the `subnets` dict as an
insertion-ordered association list keyed by each net's supernet. -/
def collapseLoop (tm : List Net) (sn : List (Net × Net)) : List (Net × Net) :=
  match tm with
  | [] => sn
  | net :: rest =>
    match h : lookupA (supernetOf net) sn with
    | none => collapseLoop rest (sn ++ [(supernetOf net, net)])
    | some existing =>
      if existing = net then collapseLoop rest sn
      else collapseLoop (supernetOf net :: rest) (eraseA (supernetOf net) sn)
termination_by 2 * stackW tm + dictW sn
decreasing_by
  · simp [stackW, dictW] <;> omega
  · simp [stackW, dictW] <;> omega
  · have h1 := eraseA_dictW_lt h
    have h2 := supernetOf_plen_le net
    simp only [stackW, dictW, List.map_cons, List.sum_cons] at *
    omega

/-- The sorted-emission filter at the end of
`_collapse_addresses_internal`: drop every network whose broadcast is
dominated by the last emitted network. -/
def filterSubsumed (last : Option Net) : List Net → List Net
  | [] => []
  | n :: ns =>
    match last with
    | none => n :: filterSubsumed (some n) ns
    | some l =>
      if n.broadcast ≤ l.broadcast then filterSubsumed (some l) ns
      else n :: filterSubsumed (some n) ns

/-- The `sorted` order on `IPv4Network`: by network address, then by
netmask (i.e. prefix length). -/
def netLe (a b : Net) : Prop :=
  a.addr < b.addr ∨ (a.addr = b.addr ∧ a.plen ≤ b.plen)

instance : DecidableRel netLe := fun a b => by unfold netLe; infer_instance

instance : IsTotal Net netLe := ⟨by
  intro a b
  unfold netLe
  rcases Nat.lt_trichotomy a.addr b.addr with h | h | h
  · exact Or.inl (Or.inl h)
  · rcases Nat.le_total a.plen b.plen with h2 | h2
    · exact Or.inl (Or.inr ⟨h, h2⟩)
    · exact Or.inr (Or.inr ⟨h.symm, h2⟩)
  · exact Or.inr (Or.inl h)⟩

instance : IsTrans Net netLe := ⟨by
  intro a b c hab hbc
  unfold netLe at *
  omega⟩

/-- Models `ipaddress._collapse_addresses_internal`: run the merge loop from an
empty dict, then yield the dict's values in sorted order, skipping values
contained in the previously yielded one. -/
def collapseInternal (addresses : List Net) : List Net :=
  filterSubsumed none
    (List.insertionSort netLe ((collapseLoop addresses.reverse []).map (·.2)))

/-- Models `ipaddress.collapse_addresses` for IPv4 networks: split off /32s as
bare addresses, sort and deduplicate them, summarise consecutive runs,
and merge with the remaining networks. -/
def collapseAddresses (input : List Net) : List Net :=
  let ips := (input.filter (fun n => n.plen = 32)).map Net.addr
  let nets := input.filter (fun n => ¬ n.plen = 32)
  let ipsSorted := List.insertionSort (· ≤ ·) ips.dedup
  let addrs := (findAddressRange ipsSorted).flatMap (fun fl => summarizeAddressRange fl.1 fl.2)
  collapseInternal (addrs ++ nets)

theorem summarize_nonempty {first last : Nat} (h : first ≤ last) :
    summarizeAddressRange first last ≠ [] := by
  rw [summarizeAddressRange]
  simp [h]

theorem summarize_cover {first last : Nat} :
    ∀ x, first ≤ x → x ≤ last →
      ∃ m ∈ summarizeAddressRange first last, SubnetOf ⟨x, 32⟩ m := by
  induction first, last using summarizeAddressRange.induct with
  | case1 first last h nbits ih =>
    intro x hx1 hx2
    rw [summarizeAddressRange]
    rw [dif_pos h]
    have hb32 : nbits ≤ 32 := le_trans (min_le_left _ _) (crzb_le_bits _ _)
    have hpos : 0 < 2 ^ nbits := Nat.pos_pow_of_pos _ (by norm_num)
    by_cases hcase : x < first + 2 ^ nbits
    · refine ⟨⟨first, 32 - nbits⟩, List.mem_cons_self _ _, ?_, ?_⟩
      · exact hx1
      · show x + 2 ^ (32 - 32) - 1 ≤ first + 2 ^ (32 - (32 - nbits)) - 1
        have he : 32 - (32 - nbits) = nbits := by omega
        rw [he]
        simp only [Nat.sub_self, pow_zero]
        omega
    · obtain ⟨m, hm, hsub⟩ := ih x (by omega) hx2
      exact ⟨m, List.mem_cons_of_mem _ hm, hsub⟩
  | case2 first last h =>
    intro x hx1 hx2
    omega

theorem summarize_valid {first last : Nat} (hlast : last < 2 ^ 32) :
    ∀ m ∈ summarizeAddressRange first last, m.valid := by
  induction first, last using summarizeAddressRange.induct with
  | case1 first last h nbits ih =>
    intro m hm
    rw [summarizeAddressRange, dif_pos h] at hm
    rcases List.mem_cons.1 hm with hm | hm
    · subst hm
      have hb32 : nbits ≤ 32 := le_trans (min_le_left _ _) (crzb_le_bits _ _)
      refine ⟨by show first < 2 ^ 32; omega, by show 32 - nbits ≤ 32; omega, ?_⟩
      show first % 2 ^ (32 - (32 - nbits)) = 0
      have he : 32 - (32 - nbits) = nbits := by omega
      rw [he]
      by_cases h0 : first = 0
      · simp [h0]
      · have hdvd : 2 ^ countRighthandZeroBits first 32 ∣ first := crzb_le_tz h0
        have hd2 : 2 ^ nbits ∣ first :=
          dvd_trans (pow_dvd_pow 2 (min_le_left _ _)) hdvd
        exact Nat.dvd_iff_mod_eq_zero.mp hd2
    · exact ih hlast m hm
  | case2 first last h =>
    intro m hm
    rw [summarizeAddressRange, dif_neg h] at hm
    exact absurd hm (by simp)

theorem findRangesGo_cover {l : List Nat} :
    ∀ {first last : Nat}, first ≤ last →
      ∀ x, (first ≤ x ∧ x ≤ last) ∨ x ∈ l →
        ∃ p ∈ findRangesGo first last l, p.1 ≤ x ∧ x ≤ p.2 := by
  induction l with
  | nil =>
    intro first last hfl x hx
    rcases hx with hx | hx
    · exact ⟨(first, last), by simp [findRangesGo], hx.1, hx.2⟩
    · exact absurd hx (by simp)
  | cons y ys ih =>
    intro first last hfl x hx
    unfold findRangesGo
    by_cases hy : y = last + 1
    · rw [if_pos hy]
      have hfl2 : first ≤ y := by omega
      rcases hx with hx | hx
      · exact ih hfl2 x (Or.inl ⟨hx.1, by omega⟩)
      · rcases List.mem_cons.1 hx with hx | hx
        · exact ih hfl2 x (Or.inl ⟨by omega, by omega⟩)
        · exact ih hfl2 x (Or.inr hx)
    · rw [if_neg hy]
      rcases hx with hx | hx
      · exact ⟨(first, last), List.mem_cons_self _ _, hx.1, hx.2⟩
      · rcases List.mem_cons.1 hx with hx | hx
        · obtain ⟨p, hp, h1, h2⟩ := ih (le_refl y) x (Or.inl ⟨le_of_eq hx.symm, le_of_eq hx⟩)
          exact ⟨p, List.mem_cons_of_mem _ hp, h1, h2⟩
        · obtain ⟨p, hp, h1, h2⟩ := ih (le_refl y) x (Or.inr hx)
          exact ⟨p, List.mem_cons_of_mem _ hp, h1, h2⟩

theorem findRangesGo_bounds {l : List Nat} :
    ∀ {first last : Nat}, first ≤ last →
      ∀ p ∈ findRangesGo first last l, p.1 ≤ p.2 ∧ (p.2 = last ∨ p.2 ∈ l) := by
  induction l with
  | nil =>
    intro first last hfl p hp
    simp [findRangesGo] at hp
    subst hp
    exact ⟨hfl, Or.inl rfl⟩
  | cons y ys ih =>
    intro first last hfl p hp
    unfold findRangesGo at hp
    by_cases hy : y = last + 1
    · rw [if_pos hy] at hp
      obtain ⟨h1, h2⟩ := ih (by omega) p hp
      refine ⟨h1, ?_⟩
      rcases h2 with h2 | h2
      · exact Or.inr (by simp [h2])
      · exact Or.inr (List.mem_cons_of_mem _ h2)
    · rw [if_neg hy] at hp
      rcases List.mem_cons.1 hp with hp | hp
      · subst hp
        exact ⟨hfl, Or.inl rfl⟩
      · obtain ⟨h1, h2⟩ := ih (le_refl y) p hp
        refine ⟨h1, ?_⟩
        rcases h2 with h2 | h2
        · exact Or.inr (by simp [h2])
        · exact Or.inr (List.mem_cons_of_mem _ h2)

theorem findAddressRange_cover {l : List Nat} {x : Nat} (hx : x ∈ l) :
    ∃ p ∈ findAddressRange l, p.1 ≤ x ∧ x ≤ p.2 := by
  cases l with
  | nil => exact absurd hx (by simp)
  | cons a t =>
    unfold findAddressRange
    rcases List.mem_cons.1 hx with hx | hx
    · exact findRangesGo_cover (le_refl a) x (Or.inl ⟨le_of_eq hx.symm, le_of_eq hx⟩)
    · exact findRangesGo_cover (le_refl a) x (Or.inr hx)

theorem findAddressRange_bounds {l : List Nat} :
    ∀ p ∈ findAddressRange l, p.1 ≤ p.2 ∧ (p.2 ∈ l) := by
  cases l with
  | nil => intro p hp; exact absurd hp (by simp [findAddressRange])
  | cons a t =>
    intro p hp
    unfold findAddressRange at hp
    obtain ⟨h1, h2⟩ := findRangesGo_bounds (le_refl a) p hp
    refine ⟨h1, ?_⟩
    rcases h2 with h2 | h2
    · simp [h2]
    · exact List.mem_cons_of_mem _ h2

theorem findRangesGo_nonempty (l : List Nat) :
    ∀ first last, findRangesGo first last l ≠ [] := by
  induction l with
  | nil => intro first last; simp [findRangesGo]
  | cons y ys ih =>
    intro first last
    unfold findRangesGo
    split
    · exact ih first y
    · simp

theorem findAddressRange_nonempty {l : List Nat} (h : l ≠ []) :
    findAddressRange l ≠ [] := by
  cases l with
  | nil => exact absurd rfl h
  | cons a t =>
    unfold findAddressRange
    exact findRangesGo_nonempty t a a

theorem filterSubsumed_subset {ns : List Net} :
    ∀ {last : Option Net} {y : Net}, y ∈ filterSubsumed last ns → y ∈ ns := by
  induction ns with
  | nil => intro last y hy; exact absurd hy (by simp [filterSubsumed])
  | cons n t ih =>
    intro last y hy
    unfold filterSubsumed at hy
    match last with
    | none =>
      rcases List.mem_cons.1 hy with hy | hy
      · simp [hy]
      · exact List.mem_cons_of_mem _ (ih hy)
    | some l =>
      simp only at hy
      split at hy
      · exact List.mem_cons_of_mem _ (ih hy)
      · rcases List.mem_cons.1 hy with hy | hy
        · simp [hy]
        · exact List.mem_cons_of_mem _ (ih hy)

theorem filterSubsumed_none_nonempty {ns : List Net} (h : ns ≠ []) :
    filterSubsumed none ns ≠ [] := by
  cases ns with
  | nil => exact absurd rfl h
  | cons n t => simp [filterSubsumed]

theorem filterSubsumed_cover {ns : List Net} :
    ∀ {last : Option Net}, List.Sorted netLe ns →
      (∀ l, last = some l → ∀ n ∈ ns, l.addr ≤ n.addr) →
      ∀ v ∈ ns, ∃ y, (y ∈ filterSubsumed last ns ∨ last = some y) ∧ SubnetOf v y := by
  induction ns with
  | nil => intro last _ _ v hv; exact absurd hv (by simp)
  | cons n t ih =>
    intro last hsort hlast v hv
    have hsort2 := (List.sorted_cons.1 hsort).2
    have hhead := (List.sorted_cons.1 hsort).1
    unfold filterSubsumed
    match last with
    | none =>
      rcases List.mem_cons.1 hv with hv | hv
      · subst hv
        exact ⟨v, Or.inl (List.mem_cons_self _ _), subnetOf_refl v⟩
      · obtain ⟨y, hy, hsub⟩ := @ih (some n) hsort2
          (by
            intro l hl m hm
            have he : n = l := by simpa using hl
            subst he
            exact (hhead m hm).elim (fun h => le_of_lt h) (fun h => le_of_eq h.1))
          v hv
        rcases hy with hy | hy
        · exact ⟨y, Or.inl (List.mem_cons_of_mem _ hy), hsub⟩
        · have he : n = y := by simpa using hy
          subst he
          exact ⟨n, Or.inl (List.mem_cons_self _ _), hsub⟩
    | some l =>
      simp only
      split
      · rename_i hbr
        -- n is subsumed by the previously emitted l
        have hln : l.addr ≤ n.addr := hlast l rfl n (List.mem_cons_self _ _)
        rcases List.mem_cons.1 hv with hv | hv
        · subst hv
          exact ⟨l, Or.inr rfl, hln, hbr⟩
        · obtain ⟨y, hy, hsub⟩ := @ih (some l) hsort2
            (by
              intro l2 hl2 m hm
              have he : l = l2 := by simpa using hl2
              subst he
              exact hlast l rfl m (List.mem_cons_of_mem _ hm))
            v hv
          rcases hy with hy | hy
          · exact ⟨y, Or.inl hy, hsub⟩
          · exact ⟨y, Or.inr hy, hsub⟩
      · rcases List.mem_cons.1 hv with hv | hv
        · subst hv
          exact ⟨v, Or.inl (List.mem_cons_self _ _), subnetOf_refl v⟩
        · obtain ⟨y, hy, hsub⟩ := @ih (some n) hsort2
            (by
              intro l2 hl2 m hm
              have he : n = l2 := by simpa using hl2
              subst he
              exact (hhead m hm).elim (fun h => le_of_lt h) (fun h => le_of_eq h.1))
            v hv
          rcases hy with hy | hy
          · exact ⟨y, Or.inl (List.mem_cons_of_mem _ hy), hsub⟩
          · have he : n = y := by simpa using hy
            subst he
            exact ⟨n, Or.inl (List.mem_cons_self _ _), hsub⟩

theorem lookupA_mem {k : Net} {l : List (Net × Net)} {v : Net}
    (h : lookupA k l = some v) : (k, v) ∈ l := by
  unfold lookupA at h
  cases hf : l.find? (fun p => p.1 = k) with
  | none => rw [hf] at h; exact absurd h (by simp)
  | some kv =>
    rw [hf] at h
    simp at h
    have hmem := List.mem_of_find?_eq_some hf
    have hp := List.find?_some hf
    simp at hp
    have : kv = (k, v) := by
      cases kv
      simp at hp h ⊢
      exact ⟨hp, h⟩
    rwa [this] at hmem

theorem mem_eraseA {k : Net} {l : List (Net × Net)} {kv : Net × Net}
    (h : kv ∈ eraseA k l) : kv ∈ l ∧ kv.1 ≠ k := by
  unfold eraseA at h
  have := List.mem_filter.1 h
  simpa using this

theorem mem_eraseA_of_ne {k : Net} {l : List (Net × Net)} {kv : Net × Net}
    (h : kv ∈ l) (hne : kv.1 ≠ k) : kv ∈ eraseA k l := by
  unfold eraseA
  exact List.mem_filter.2 ⟨h, by simpa using hne⟩

theorem collapseLoop_nil (sn : List (Net × Net)) : collapseLoop [] sn = sn := by
  rw [collapseLoop]

theorem collapseLoop_cons_none {net : Net} {sn : List (Net × Net)}
    (h : lookupA (supernetOf net) sn = none) (rest : List Net) :
    collapseLoop (net :: rest) sn = collapseLoop rest (sn ++ [(supernetOf net, net)]) := by
  rw [collapseLoop]
  split
  · rfl
  · rename_i ex hex
    rw [h] at hex
    exact absurd hex (by simp)

theorem collapseLoop_cons_dup {net : Net} {sn : List (Net × Net)}
    (h : lookupA (supernetOf net) sn = some net) (rest : List Net) :
    collapseLoop (net :: rest) sn = collapseLoop rest sn := by
  rw [collapseLoop]
  split
  · rename_i hex
    rw [h] at hex
    exact absurd hex (by simp)
  · rename_i ex hex
    rw [h] at hex
    have he : ex = net := by simpa using hex.symm
    subst he
    rw [if_pos rfl]

theorem collapseLoop_cons_merge {net existing : Net} {sn : List (Net × Net)}
    (h : lookupA (supernetOf net) sn = some existing) (hne : ¬ existing = net)
    (rest : List Net) :
    collapseLoop (net :: rest) sn
      = collapseLoop (supernetOf net :: rest) (eraseA (supernetOf net) sn) := by
  rw [collapseLoop]
  split
  · rename_i hex
    rw [h] at hex
    exact absurd hex (by simp)
  · rename_i ex hex
    rw [h] at hex
    have he : ex = existing := by simpa using hex.symm
    subst he
    rw [if_neg hne]

/-- Soundness of the sibling-merge loop: values stay valid, every network
contained in a stack entry or a dict value is contained in some final dict
value, and the loop never empties a non-trivial state. -/
theorem collapseLoop_sound (tm : List Net) (sn : List (Net × Net))
    (hv : ∀ n ∈ tm, n.valid) (hd : ∀ kv ∈ sn, kv.2.valid ∧ kv.1 = supernetOf kv.2) :
    (∀ kv ∈ collapseLoop tm sn, kv.2.valid) ∧
    (∀ x : Net, ((∃ m ∈ tm, SubnetOf x m) ∨ (∃ kv ∈ sn, SubnetOf x kv.2)) →
      ∃ kv ∈ collapseLoop tm sn, SubnetOf x kv.2) ∧
    ((tm ≠ [] ∨ sn ≠ []) → collapseLoop tm sn ≠ []) := by
  induction tm, sn using collapseLoop.induct with
  | case1 sn =>
    rw [collapseLoop_nil]
    refine ⟨fun kv hkv => (hd kv hkv).1, ?_, ?_⟩
    · intro x hx
      rcases hx with ⟨m, hm, _⟩ | hx
      · exact absurd hm (by simp)
      · exact hx
    · intro hne
      rcases hne with hne | hne
      · exact absurd rfl hne
      · exact hne
  | case2 sn net rest h ih =>
    rw [collapseLoop_cons_none h rest]
    have hv' : ∀ n ∈ rest, n.valid := fun n hn => hv n (List.mem_cons_of_mem _ hn)
    have hnet : net.valid := hv net (List.mem_cons_self _ _)
    have hd' : ∀ kv ∈ sn ++ [(supernetOf net, net)],
        kv.2.valid ∧ kv.1 = supernetOf kv.2 := by
      intro kv hkv
      rcases List.mem_append.1 hkv with hkv | hkv
      · exact hd kv hkv
      · simp at hkv
        subst hkv
        exact ⟨hnet, rfl⟩
    obtain ⟨ihv, ihc, ihn⟩ := ih hv' hd'
    refine ⟨ihv, ?_, fun _ => ihn (Or.inr (by simp))⟩
    intro x hx
    apply ihc
    rcases hx with ⟨m, hm, hsub⟩ | ⟨kv, hkv, hsub⟩
    · rcases List.mem_cons.1 hm with hm | hm
      · subst hm
        exact Or.inr ⟨(supernetOf m, m), List.mem_append.2 (Or.inr (by simp)), hsub⟩
      · exact Or.inl ⟨m, hm, hsub⟩
    · exact Or.inr ⟨kv, List.mem_append.2 (Or.inl hkv), hsub⟩
  | case3 sn rest existing h ih =>
    rw [collapseLoop_cons_dup h rest]
    have hv' : ∀ n ∈ rest, n.valid := fun n hn => hv n (List.mem_cons_of_mem _ hn)
    obtain ⟨ihv, ihc, ihn⟩ := ih hv' hd
    have hmem : (supernetOf existing, existing) ∈ sn := lookupA_mem h
    refine ⟨ihv, ?_, fun _ => ihn (Or.inr (fun hsn => by simp [hsn] at hmem))⟩
    intro x hx
    apply ihc
    rcases hx with ⟨m, hm, hsub⟩ | ⟨kv, hkv, hsub⟩
    · rcases List.mem_cons.1 hm with hm | hm
      · subst hm
        exact Or.inr ⟨(supernetOf m, m), hmem, hsub⟩
      · exact Or.inl ⟨m, hm, hsub⟩
    · exact Or.inr ⟨kv, hkv, hsub⟩
  | case4 sn net rest existing h hne ih =>
    rw [collapseLoop_cons_merge h hne rest]
    have hnet : net.valid := hv net (List.mem_cons_self _ _)
    have hv' : ∀ n ∈ supernetOf net :: rest, n.valid := by
      intro n hn
      rcases List.mem_cons.1 hn with hn | hn
      · subst hn; exact supernetOf_valid hnet
      · exact hv n (List.mem_cons_of_mem _ hn)
    have hd' : ∀ kv ∈ eraseA (supernetOf net) sn,
        kv.2.valid ∧ kv.1 = supernetOf kv.2 :=
      fun kv hkv => hd kv (mem_eraseA hkv).1
    obtain ⟨ihv, ihc, ihn⟩ := ih hv' hd'
    refine ⟨ihv, ?_, fun _ => ihn (Or.inl (by simp))⟩
    intro x hx
    apply ihc
    rcases hx with ⟨m, hm, hsub⟩ | ⟨kv, hkv, hsub⟩
    · rcases List.mem_cons.1 hm with hm | hm
      · subst hm
        exact Or.inl ⟨supernetOf m, List.mem_cons_self _ _,
          subnetOf_trans hsub (subnetOf_supernetOf hnet)⟩
      · exact Or.inl ⟨m, List.mem_cons_of_mem _ hm, hsub⟩
    · by_cases hk : kv.1 = supernetOf net
      · -- the erased entries' values are subnets of the pushed parent
        have hkv2 := hd kv hkv
        have hsup : SubnetOf kv.2 (supernetOf net) := by
          rw [← hk, hkv2.2]
          exact subnetOf_supernetOf hkv2.1
        exact Or.inl ⟨supernetOf net, List.mem_cons_self _ _, subnetOf_trans hsub hsup⟩
      · exact Or.inr ⟨kv, mem_eraseA_of_ne hkv hk, hsub⟩

theorem collapseInternal_spec (addresses : List Net)
    (hv : ∀ n ∈ addresses, n.valid) :
    (∀ m ∈ collapseInternal addresses, m.valid) ∧
    (addresses ≠ [] → collapseInternal addresses ≠ []) ∧
    (∀ x ∈ addresses, ∃ m ∈ collapseInternal addresses, SubnetOf x m) := by
  obtain ⟨hval, hcov, hne⟩ :=
    collapseLoop_sound addresses.reverse []
      (fun n hn => hv n (List.mem_reverse.1 hn)) (by simp)
  set L := collapseLoop addresses.reverse [] with hL
  have hvals : ∀ v ∈ L.map (·.2), v.valid := by
    intro v hvv
    obtain ⟨kv, hkv, hkve⟩ := List.mem_map.1 hvv
    exact hkve ▸ hval kv hkv
  have hsorted : List.Sorted netLe (List.insertionSort netLe (L.map (·.2))) :=
    List.sorted_insertionSort netLe _
  have hpermmem : ∀ v, v ∈ List.insertionSort netLe (L.map (·.2)) ↔ v ∈ L.map (·.2) :=
    fun v => (List.perm_insertionSort netLe (L.map (·.2))).mem_iff
  refine ⟨?_, ?_, ?_⟩
  · intro m hm
    have := filterSubsumed_subset hm
    exact hvals m ((hpermmem m).1 this)
  · intro hane
    apply filterSubsumed_none_nonempty
    intro hs
    have hLne : L ≠ [] := hne (Or.inl (by simpa using hane))
    have : L.map (·.2) ≠ [] := by simpa using hLne
    have hperm := List.perm_insertionSort netLe (L.map (·.2))
    rw [hs] at hperm
    exact this (List.Perm.eq_nil hperm.symm)
  · intro x hx
    obtain ⟨kv, hkv, hsub⟩ := hcov x (Or.inl ⟨x, List.mem_reverse.2 hx, subnetOf_refl x⟩)
    have hvmem : kv.2 ∈ List.insertionSort netLe (L.map (·.2)) :=
      (hpermmem kv.2).2 (List.mem_map.2 ⟨kv, hkv, rfl⟩)
    obtain ⟨y, hy, hysub⟩ :=
      @filterSubsumed_cover _ none hsorted (by intro l hl; injection hl) kv.2 hvmem
    rcases hy with hy | hy
    · exact ⟨y, hy, subnetOf_trans hsub hysub⟩
    · injection hy

theorem collapseAddresses_spec (input : List Net)
    (hv : ∀ n ∈ input, n.valid) :
    (∀ m ∈ collapseAddresses input, m.valid) ∧
    (input ≠ [] → collapseAddresses input ≠ []) ∧
    (∀ x ∈ input, ∃ m ∈ collapseAddresses input, SubnetOf x m) := by
  unfold collapseAddresses
  set ips := (input.filter (fun n => n.plen = 32)).map Net.addr with hips
  set nets := input.filter (fun n => ¬ n.plen = 32) with hnets
  set ipsSorted := List.insertionSort (· ≤ ·) ips.dedup with hipss
  set addrs := (findAddressRange ipsSorted).flatMap
    (fun fl => summarizeAddressRange fl.1 fl.2) with haddrs
  -- every entry of `ips` (hence of `ipsSorted`) is below 2^32
  have hipslt : ∀ a ∈ ips, a < 2 ^ 32 := by
    intro a ha
    obtain ⟨n, hn, hna⟩ := List.mem_map.1 ha
    exact hna ▸ (hv n (List.mem_filter.1 hn).1).1
  have hipsslt : ∀ a ∈ ipsSorted, a < 2 ^ 32 := by
    intro a ha
    have := (List.perm_insertionSort (· ≤ ·) ips.dedup).mem_iff.1 ha
    exact hipslt a (List.mem_dedup.1 this)
  -- summarised blocks are valid
  have haddrv : ∀ m ∈ addrs, m.valid := by
    intro m hm
    obtain ⟨fl, hfl, hmem⟩ := List.mem_flatMap.1 hm
    obtain ⟨_, h2⟩ := findAddressRange_bounds fl hfl
    exact summarize_valid (hipsslt fl.2 h2) m hmem
  have hnetv : ∀ m ∈ nets, m.valid := fun m hm => hv m (List.mem_filter.1 hm).1
  have hallv : ∀ m ∈ addrs ++ nets, m.valid := by
    intro m hm
    rcases List.mem_append.1 hm with hm | hm
    · exact haddrv m hm
    · exact hnetv m hm
  obtain ⟨hv2, hne2, hcov2⟩ := collapseInternal_spec (addrs ++ nets) hallv
  refine ⟨hv2, ?_, ?_⟩
  · -- non-emptiness
    intro hinne
    apply hne2
    intro happ
    rcases List.append_eq_nil.1 happ with ⟨ha, hn⟩
    -- input non-empty: some element is a /32 or a network
    obtain ⟨n, hn0⟩ := List.exists_mem_of_ne_nil input hinne
    by_cases h32 : n.plen = 32
    · -- then ips, ipsSorted, the ranges and the summaries are all non-empty
      have hmem : n.addr ∈ ips :=
        List.mem_map.2 ⟨n, List.mem_filter.2 ⟨hn0, by simp [h32]⟩, rfl⟩
      have hsne : ipsSorted ≠ [] := by
        intro hcon
        have h5 : n.addr ∈ ipsSorted :=
          (List.perm_insertionSort (· ≤ ·) ips.dedup).mem_iff.2 (List.mem_dedup.2 hmem)
        rw [hcon] at h5
        exact absurd h5 (by simp)
      obtain ⟨p, hp⟩ := List.exists_mem_of_ne_nil _ (findAddressRange_nonempty hsne)
      have hple := (findAddressRange_bounds p hp).1
      have : summarizeAddressRange p.1 p.2 ≠ [] := summarize_nonempty hple
      obtain ⟨m, hmm⟩ := List.exists_mem_of_ne_nil _ this
      have : m ∈ addrs := List.mem_flatMap.2 ⟨p, hp, hmm⟩
      rw [ha] at this
      exact absurd this (by simp)
    · have : n ∈ nets := List.mem_filter.2 ⟨hn0, by simpa using h32⟩
      rw [hn] at this
      exact absurd this (by simp)
  · -- coverage
    intro x hx
    by_cases h32 : x.plen = 32
    · have hmem : x.addr ∈ ips :=
        List.mem_map.2 ⟨x, List.mem_filter.2 ⟨hx, by simp [h32]⟩, rfl⟩
      have hmem2 : x.addr ∈ ipsSorted :=
        (List.perm_insertionSort (· ≤ ·) ips.dedup).mem_iff.2 (List.mem_dedup.2 hmem)
      obtain ⟨p, hp, hp1, hp2⟩ := findAddressRange_cover hmem2
      obtain ⟨m0, hm0, hsub0⟩ := summarize_cover x.addr hp1 hp2
      have hxm0 : SubnetOf x m0 := by
        obtain ⟨ha, hb⟩ := hsub0
        refine ⟨ha, ?_⟩
        have : x.broadcast = x.addr := by
          unfold Net.broadcast
          rw [h32]
          simp
        rw [this]
        have : (Net.mk x.addr 32).broadcast = x.addr := by
          unfold Net.broadcast
          simp
        rw [this] at hb
        exact hb
      have hm0a : m0 ∈ addrs ++ nets :=
        List.mem_append.2 (Or.inl (List.mem_flatMap.2 ⟨p, hp, hm0⟩))
      obtain ⟨m, hm, hsubm⟩ := hcov2 m0 hm0a
      exact ⟨m, hm, subnetOf_trans hxm0 hsubm⟩
    · have hxm : x ∈ addrs ++ nets :=
        List.mem_append.2 (Or.inr (List.mem_filter.2 ⟨hx, by simpa using h32⟩))
      exact hcov2 x hxm

/-! Section: the `FirewallAnalyzer._supernet` model -/

/-- The inner `while not net.subnet_of(sup): sup = sup.supernet(new_prefix=sup.prefixlen - 1)`
loop.  At prefix length 0 Python's `supernet` returns the network itself,
so the loop could only spin forever; that (unreachable for valid inputs)
state is modelled as `none`. -/
def widenLoop (sup net : Net) : Option Net :=
  if SubnetOf net sup then some sup
  else if sup.plen = 0 then none
  else widenLoop (supernetOf sup) net
termination_by sup.plen
decreasing_by
  rename_i h0
  unfold supernetOf
  rw [if_neg h0]
  show sup.plen - 1 < sup.plen
  omega

/-- The `for net in collapsed[1:]` fold around `widenLoop`. -/
def foldWiden (sup : Net) : List Net → Option Net
  | [] => some sup
  | n :: rest =>
    match widenLoop sup n with
    | none => none
    | some sup2 => foldWiden sup2 rest

/-- The list comprehension
`[ip_network(ip) if '/' in ip else ip_network(ip + '/32') for ip in ip_list]`:
the first `ValueError` aborts the whole computation. -/
def traverseParse : List String → Option (List Net)
  | [] => some []
  | s :: rest =>
    match parseInput s with
    | none => none
    | some n =>
      match traverseParse rest with
      | none => none
      | some ns => some (n :: ns)

/-- Models `FirewallAnalyzer._supernet(ip_list)`: parse every entry, collapse,
and if more than one disjoint network remains, widen the first network
until it contains each of the others.  Any `ValueError` yields `None`.
(An empty input would raise an uncaught `IndexError` in Python; callers
guard against it, and the `[]` branch below is unreachable from them.) -/
def supernet (ip_list : List String) : Option String :=
  match traverseParse ip_list with
  | none => none
  | some nets =>
    match collapseAddresses nets with
    | [] => none
    | [c] => some (netToStr c)
    | c :: rest =>
      match foldWiden c rest with
      | none => none
      | some sup => some (netToStr sup)

theorem widenLoop_sound (sup net : Net) :
    sup.valid → net.valid →
    ∃ m, widenLoop sup net = some m ∧ m.valid ∧ SubnetOf sup m ∧ SubnetOf net m := by
  induction sup, net using widenLoop.induct with
  | case1 sup net h =>
    intro hs hn
    rw [widenLoop, if_pos h]
    exact ⟨sup, rfl, hs, subnetOf_refl sup, h⟩
  | case2 sup net h h0 =>
    intro hs hn
    -- a /0 supernet contains every valid net, contradicting ¬SubnetOf
    exfalso
    apply h
    have ha : sup.addr = 0 := valid_plen_zero hs h0
    have hsup : sup = ⟨0, 0⟩ := by
      cases sup
      simp at ha h0
      simp [ha, h0]
    rw [hsup]
    exact subnetOf_zero hn
  | case3 sup net h h0 ih =>
    intro hs hn
    rw [widenLoop, if_neg h, if_neg h0]
    obtain ⟨m, hm, hmv, hsubs, hsubn⟩ := ih (supernetOf_valid hs) hn
    exact ⟨m, hm, hmv, subnetOf_trans (subnetOf_supernetOf hs) hsubs, hsubn⟩

theorem foldWiden_sound {sup : Net} {l : List Net} (hs : sup.valid)
    (hl : ∀ n ∈ l, n.valid) :
    ∃ m, foldWiden sup l = some m ∧ m.valid ∧ SubnetOf sup m ∧
      ∀ n ∈ l, SubnetOf n m := by
  induction l generalizing sup with
  | nil => exact ⟨sup, rfl, hs, subnetOf_refl sup, by simp⟩
  | cons n rest ih =>
    obtain ⟨m1, hm1, hm1v, hsub1, hsubn⟩ :=
      widenLoop_sound sup n hs (hl n (List.mem_cons_self _ _))
    obtain ⟨m, hm, hmv, hsub2, hall⟩ :=
      ih hm1v (fun k hk => hl k (List.mem_cons_of_mem _ hk))
    refine ⟨m, ?_, hmv, subnetOf_trans hsub1 hsub2, ?_⟩
    · unfold foldWiden
      rw [hm1]
      exact hm
    · intro k hk
      rcases List.mem_cons.1 hk with hk | hk
      · subst hk
        exact subnetOf_trans hsubn hsub2
      · exact hall k hk

theorem traverseParse_some {l : List String} {nets : List Net}
    (h : traverseParse l = some nets) :
    (∀ n ∈ nets, ∃ s ∈ l, parseInput s = some n) ∧
    (∀ s ∈ l, ∀ n, parseInput s = some n → n ∈ nets) ∧
    (nets = [] → l = []) := by
  induction l generalizing nets with
  | nil =>
    unfold traverseParse at h
    simp at h
    subst h
    exact ⟨by simp, by simp, fun _ => rfl⟩
  | cons s rest ih =>
    unfold traverseParse at h
    cases hp : parseInput s with
    | none => rw [hp] at h; exact absurd h (by simp)
    | some n =>
      rw [hp] at h
      cases ht : traverseParse rest with
      | none => rw [ht] at h; exact absurd h (by simp)
      | some ns =>
        rw [ht] at h
        simp at h
        subst h
        obtain ⟨ih1, ih2, ih3⟩ := ih ht
        refine ⟨?_, ?_, by simp⟩
        · intro m hm
          rcases List.mem_cons.1 hm with hm | hm
          · exact ⟨s, List.mem_cons_self _ _, hm ▸ hp⟩
          · obtain ⟨s2, hs2, hps2⟩ := ih1 m hm
            exact ⟨s2, List.mem_cons_of_mem _ hs2, hps2⟩
        · intro s2 hs2 m hpm
          rcases List.mem_cons.1 hs2 with hs2 | hs2
          · subst hs2
            rw [hp] at hpm
            simp at hpm
            simp [hpm]
          · exact List.mem_cons_of_mem _ (ih2 s2 hs2 m hpm)

theorem traverseParse_none {l : List String} (h : traverseParse l = none) :
    ∃ s ∈ l, parseInput s = none := by
  induction l with
  | nil => unfold traverseParse at h; exact absurd h (by simp)
  | cons s rest ih =>
    unfold traverseParse at h
    cases hp : parseInput s with
    | none => exact ⟨s, List.mem_cons_self _ _, hp⟩
    | some n =>
      rw [hp] at h
      cases ht : traverseParse rest with
      | none =>
        obtain ⟨s2, hs2, hps2⟩ := ih ht
        exact ⟨s2, List.mem_cons_of_mem _ hs2, hps2⟩
      | some ns => rw [ht] at h; exact absurd h (by simp)

theorem traverseParse_isSome {l : List String} (h : ∀ s ∈ l, parseInput s ≠ none) :
    ∃ nets, traverseParse l = some nets := by
  cases ht : traverseParse l with
  | none =>
    obtain ⟨s, hs, hps⟩ := traverseParse_none ht
    exact absurd hps (h s hs)
  | some nets => exact ⟨nets, rfl⟩

theorem supernet_eq_parsed {l : List String} {nets : List Net}
    (h : traverseParse l = some nets) :
    supernet l =
      (match collapseAddresses nets with
        | [] => none
        | [c] => some (netToStr c)
        | c :: rest =>
          match foldWiden c rest with
          | none => none
          | some sup => some (netToStr sup)) := by
  unfold supernet
  rw [h]

/-- Master lemma for `_supernet`: when every input parses, the result is
a single network string containing every input network. -/
theorem supernet_spec {l : List String} (hne : l ≠ [])
    (hall : ∀ s ∈ l, parseInput s ≠ none) :
    ∃ m : Net, supernet l = some (netToStr m) ∧ m.valid ∧
      ∀ s ∈ l, ∀ n, parseInput s = some n → SubnetOf n m := by
  obtain ⟨nets, hnets⟩ := traverseParse_isSome hall
  obtain ⟨htp1, htp2, htp3⟩ := traverseParse_some hnets
  have hnv : ∀ n ∈ nets, n.valid := by
    intro n hn
    obtain ⟨s, _, hps⟩ := htp1 n hn
    exact parseInput_valid hps
  have hnetsne : nets ≠ [] := fun hc => hne (htp3 hc)
  obtain ⟨hcv, hcne, hccov⟩ := collapseAddresses_spec nets hnv
  rw [supernet_eq_parsed hnets]
  cases hc : collapseAddresses nets with
  | nil => exact absurd hc (hcne hnetsne)
  | cons c rest =>
    cases rest with
    | nil =>
      refine ⟨c, rfl, hcv c (by simp [hc]), ?_⟩
      intro s hs n hpn
      obtain ⟨m, hm, hsub⟩ := hccov n (htp2 s hs n hpn)
      rw [hc] at hm
      simp at hm
      exact hm ▸ hsub
    | cons c2 rest2 =>
      have hcval : c.valid := hcv c (by simp [hc])
      have hrestval : ∀ n ∈ c2 :: rest2, n.valid := by
        intro n hn
        exact hcv n (by simp [hc, List.mem_cons.1 hn])
      obtain ⟨m, hfw, hmv, hsubc, hall2⟩ := foldWiden_sound hcval hrestval
      refine ⟨m, ?_, hmv, ?_⟩
      · show (match foldWiden c (c2 :: rest2) with
          | none => none
          | some sup => some (netToStr sup)) = some (netToStr m)
        rw [hfw]
      intro s hs n hpn
      obtain ⟨y, hy, hsub⟩ := hccov n (htp2 s hs n hpn)
      rw [hc] at hy
      rcases List.mem_cons.1 hy with hy | hy
      · exact subnetOf_trans hsub (hy ▸ hsubc)
      · exact subnetOf_trans hsub (hall2 y hy)

theorem traverseParse_all_some {l : List String} {nets : List Net}
    (h : traverseParse l = some nets) : ∀ s ∈ l, parseInput s ≠ none := by
  induction l generalizing nets with
  | nil => intro s hs; exact absurd hs (by simp)
  | cons s0 rest ih =>
    unfold traverseParse at h
    cases hp : parseInput s0 with
    | none => rw [hp] at h; exact absurd h (by simp)
    | some n =>
      rw [hp] at h
      cases ht : traverseParse rest with
      | none => rw [ht] at h; exact absurd h (by simp)
      | some ns =>
        intro s hs
        rcases List.mem_cons.1 hs with hs | hs
        · subst hs; simp [hp]
        · exact ih ht s hs

/-! Section: Frequency tables and `_threshold_subset`

A pandas `Series` of counts is modelled as an association list of
(key, count) pairs in its storage order; the float arithmetic of
`cum / total` is modelled exactly over `ℚ`. -/

/-- The keys of a table, in storage order. -/
def keysOf (s : List (String × Nat)) : List String := s.map (·.1)

/-- Models `s.sum()` as a rational. -/
def totalOf (s : List (String × Nat)) : ℚ := ((s.map (·.2)).sum : Nat)

/-- Sum of the first `k` counts, as a rational. -/
def sumTake (s : List (String × Nat)) (k : Nat) : ℚ := (((s.take k).map (·.2)).sum : Nat)

/-- Cumulative share of the first `k` keys. -/
def shareOf (s : List (String × Nat)) (k : Nat) : ℚ := sumTake s k / totalOf s

/-- The `for v, c in s.items()` loop of `_threshold_subset`: accumulate
keys until the cumulative share reaches `t`, else exhaust the list. -/
def thresholdLoop (total t : ℚ) : List (String × Nat) → ℚ → List String → List String × ℚ
  | [], cum, elems => (elems, cum / total)
  | (v, c) :: rest, cum, elems =>
    if t ≤ (cum + (c : ℚ)) / total then (elems ++ [v], (cum + (c : ℚ)) / total)
    else thresholdLoop total t rest (cum + (c : ℚ)) (elems ++ [v])

/-- Models `FirewallAnalyzer._threshold_subset(s, t)`. -/
def threshold_subset (s : List (String × Nat)) (t : ℚ) : List String × ℚ :=
  match s with
  | [] => ([], 0)
  | _ => thresholdLoop (totalOf s) t s 0 []

/-- Number of iterations the loop performs before stopping (its selected
key count). -/
def stepCount (total t : ℚ) : List (String × Nat) → ℚ → Nat
  | [], _ => 0
  | (_, c) :: rest, cum =>
    if t ≤ (cum + (c : ℚ)) / total then 1
    else 1 + stepCount total t rest (cum + (c : ℚ))

theorem thresholdLoop_eq (total t : ℚ) :
    ∀ (l : List (String × Nat)) (cum : ℚ) (elems : List String),
      thresholdLoop total t l cum elems =
        (elems ++ (l.map (·.1)).take (stepCount total t l cum),
         (cum + (((l.take (stepCount total t l cum)).map (·.2)).sum : Nat)) / total) := by
  intro l
  induction l with
  | nil => intro cum elems; simp [thresholdLoop, stepCount]
  | cons p rest ih =>
    intro cum elems
    obtain ⟨v, c⟩ := p
    unfold thresholdLoop stepCount
    by_cases hbr : t ≤ (cum + (c : ℚ)) / total
    · rw [if_pos hbr, if_pos hbr]
      simp
    · rw [if_neg hbr, if_neg hbr]
      rw [ih (cum + (c : ℚ)) (elems ++ [v])]
      rw [Nat.add_comm 1 (stepCount total t rest (cum + (c : ℚ)))]
      refine Prod.ext ?_ ?_
      · show elems ++ [v] ++ _ = elems ++ _
        rw [List.map_cons, List.take_succ_cons, List.append_assoc]
        rfl
      · show (cum + (c : ℚ) + _) / total = (cum + _) / total
        rw [List.take_succ_cons, List.map_cons, List.sum_cons]
        push_cast
        ring_nf

theorem stepCount_pos (total t : ℚ) (p : String × Nat) (rest : List (String × Nat))
    (cum : ℚ) : 1 ≤ stepCount total t (p :: rest) cum := by
  obtain ⟨v, c⟩ := p
  unfold stepCount
  by_cases hbr : t ≤ (cum + (c : ℚ)) / total
  · rw [if_pos hbr]
  · rw [if_neg hbr]
    omega

theorem stepCount_le_length (total t : ℚ) :
    ∀ (l : List (String × Nat)) (cum : ℚ), stepCount total t l cum ≤ l.length := by
  intro l
  induction l with
  | nil => intro cum; simp [stepCount]
  | cons p rest ih =>
    intro cum
    obtain ⟨v, c⟩ := p
    unfold stepCount
    split
    · simp
    · have := ih (cum + (c : ℚ))
      simp
      omega

theorem stepCount_min (total t : ℚ) :
    ∀ (l : List (String × Nat)) (cum : ℚ) (j : Nat),
      1 ≤ j → j < stepCount total t l cum →
      (cum + (((l.take j).map (·.2)).sum : Nat)) / total < t := by
  intro l
  induction l with
  | nil =>
    intro cum j h1 h2
    simp [stepCount] at h2
  | cons p rest ih =>
    intro cum j h1 h2
    obtain ⟨v, c⟩ := p
    unfold stepCount at h2
    split at h2
    · omega
    · rename_i hbr
      cases j with
      | zero => omega
      | succ j2 =>
        rw [List.take_succ_cons, List.map_cons, List.sum_cons]
        rcases Nat.eq_zero_or_pos j2 with h0 | hpos
        · subst h0
          simp
          exact not_le.1 hbr
        · have hrec := ih (cum + (c : ℚ)) j2 hpos (by omega)
          rw [Nat.cast_add, ← add_assoc]
          exact hrec

theorem stepCount_attain (total t : ℚ) :
    ∀ (l : List (String × Nat)) (cum : ℚ),
      l ≠ [] →
      (t ≤ (cum + (((l.take (stepCount total t l cum)).map (·.2)).sum : Nat)) / total
        ∨ stepCount total t l cum = l.length) := by
  intro l
  induction l with
  | nil => intro cum h; exact absurd rfl h
  | cons p rest ih =>
    intro cum h
    obtain ⟨v, c⟩ := p
    unfold stepCount
    by_cases hbr : t ≤ (cum + (c : ℚ)) / total
    · rw [if_pos hbr]
      left
      simpa using hbr
    · rw [if_neg hbr]
      by_cases hre : rest = []
      · subst hre
        right
        simp [stepCount]
      · rcases ih (cum + (c : ℚ)) hre with hih | hih
        · left
          rw [Nat.add_comm 1 (stepCount total t rest (cum + (c : ℚ))),
            List.take_succ_cons, List.map_cons, List.sum_cons, Nat.cast_add, ← add_assoc]
          exact hih
        · right
          simp [hih]
          omega

theorem threshold_subset_nil (t : ℚ) : threshold_subset [] t = ([], 0) := rfl

/-- Applied to a non-empty table, `_threshold_subset` selects exactly the first
`stepCount` keys and reports their cumulative share. -/
theorem threshold_subset_eq {s : List (String × Nat)} (h : s ≠ []) (t : ℚ) :
    threshold_subset s t =
      ((keysOf s).take (stepCount (totalOf s) t s 0),
        shareOf s (stepCount (totalOf s) t s 0)) := by
  unfold threshold_subset
  match s, h with
  | p :: rest, _ =>
    rw [thresholdLoop_eq]
    unfold keysOf shareOf sumTake
    simp

theorem sumTake_mono (s : List (String × Nat)) {k1 k2 : Nat} (h : k1 ≤ k2) :
    sumTake s k1 ≤ sumTake s k2 := by
  unfold sumTake
  have hpre : s.take k1 <+: s.take k2 := List.take_isPrefix_take.2 (Or.inl h)
  have hsub : List.Sublist ((s.take k1).map (·.2)) ((s.take k2).map (·.2)) :=
    (hpre.sublist).map _
  exact_mod_cast List.Sublist.sum_le_sum hsub (by simp)

theorem shareOf_mono (s : List (String × Nat)) {k1 k2 : Nat} (h : k1 ≤ k2) :
    shareOf s k1 ≤ shareOf s k2 := by
  unfold shareOf
  rcases eq_or_lt_of_le (show (0:ℚ) ≤ totalOf s from Nat.cast_nonneg _) with h0 | h0
  · rw [← h0]
    simp
  · exact (div_le_div_right h0).2 (sumTake_mono s h)

theorem stepCount_mono_t {t1 t2 : ℚ} (h : t1 ≤ t2) (total : ℚ) :
    ∀ (l : List (String × Nat)) (cum : ℚ),
      stepCount total t1 l cum ≤ stepCount total t2 l cum := by
  intro l
  induction l with
  | nil => intro cum; simp [stepCount]
  | cons p rest ih =>
    intro cum
    obtain ⟨v, c⟩ := p
    unfold stepCount
    by_cases hb2 : t2 ≤ (cum + (c : ℚ)) / total
    · rw [if_pos hb2, if_pos (le_trans h hb2)]
    · rw [if_neg hb2]
      by_cases hb1 : t1 ≤ (cum + (c : ℚ)) / total
      · rw [if_pos hb1]
        have := stepCount_le_length total t2 rest (cum + (c : ℚ))
        omega
      · rw [if_neg hb1]
        have := ih (cum + (c : ℚ))
        omega

/-- Positive counts and a non-empty table make the total positive. -/
theorem totalOf_pos {s : List (String × Nat)} (hne : s ≠ [])
    (hpos : ∀ p ∈ s, 0 < p.2) : 0 < totalOf s := by
  unfold totalOf
  match s, hne with
  | p :: rest, _ =>
    have := hpos p (List.mem_cons_self _ _)
    simp only [List.map_cons, List.sum_cons]
    have hcast : (0:ℚ) < ((p.2 + (rest.map (·.2)).sum : Nat) : ℚ) := by
      exact_mod_cast Nat.lt_of_lt_of_le this (Nat.le_add_right _ _)
    exact hcast

theorem shareOf_full {s : List (String × Nat)} (hne : s ≠ [])
    (hpos : ∀ p ∈ s, 0 < p.2) : shareOf s s.length = 1 := by
  unfold shareOf sumTake totalOf
  rw [List.take_of_length_le (le_refl _)]
  have := totalOf_pos hne hpos
  unfold totalOf at this
  exact div_self (ne_of_gt this)

/-! Section: the `_best_network` model and the rule generator -/

/-- Models `FirewallAnalyzer._best_network(s, thresh, max_pref)`: threshold
subset, supernet (only for a non-empty selection), and the minimum
prefix-length policy check on the re-parsed network string.  (The parser
cannot fail on a string `_supernet` produced; Python would raise there.) -/
def best_network (s : List (String × Nat)) (thresh : ℚ) (max_pref : Nat) :
    Option String × ℚ :=
  match (if (threshold_subset s thresh).1 = []
          then none else supernet (threshold_subset s thresh).1) with
  | some str =>
    match ipNetworkOfString str with
    | some n =>
      if max_pref ≤ n.plen then (some str, (threshold_subset s thresh).2)
      else (none, (threshold_subset s thresh).2)
    | none => (none, (threshold_subset s thresh).2)
  | none => (none, (threshold_subset s thresh).2)

/-- Descending-count order on table entries (`sort_values(ascending=False)`
and `sorted(..., key=count, reverse=True)`; our model uses a stable sort,
pandas' default quicksort leaves ties unspecified). -/
def countGe (a b : String × Nat) : Prop := b.2 ≤ a.2

instance : DecidableRel countGe := fun a b => by unfold countGe; infer_instance

instance : IsTotal (String × Nat) countGe := ⟨fun a b => le_total b.2 a.2⟩

instance : IsTrans (String × Nat) countGe :=
  ⟨fun _ _ _ hab hbc => le_trans hbc hab⟩

/-- Lines 139-141: rank destination ports by descending count, keep those
whose individual share of the total reaches `min_port_share`, capped at
`max_ports`. -/
def selectPorts (dst_ports : List (String × Nat)) (min_port_share : ℚ)
    (max_ports : Nat) : List String :=
  let port_series := List.insertionSort countGe dst_ports
  ((port_series.filter
      (fun p => min_port_share ≤ (p.2 : ℚ) / ((port_series.map (·.2)).sum : Nat))).map
    (·.1)).take max_ports

/-- Lines 133-136: the source scope — `_best_network` at minimum prefix 21,
else the comma-joined first three selected addresses with an ellipsis when
more than three were selected. -/
def sourceScope (src_ip_counts : List (String × Nat)) (ip_thresh : ℚ) : String × ℚ :=
  match (best_network src_ip_counts ip_thresh 21).1 with
  | some net => (net, (best_network src_ip_counts ip_thresh 21).2)
  | none =>
    (String.intercalate ", " ((threshold_subset src_ip_counts ip_thresh).1.take 3)
      ++ (if 3 < (threshold_subset src_ip_counts ip_thresh).1.length then "…" else ""),
     (threshold_subset src_ip_counts ip_thresh).2)

/-- Models `FirewallAnalyzer._ip_to24`: `'.'.join(o[:3] + ['0']) + '/24'`. -/
def ip_to24 (ip : String) : String :=
  String.intercalate "." ((splitOnChar '.' ip).take 3 ++ ["0"]) ++ "/24"

/-- Models `cluster_bytes[cidr] = cluster_bytes.get(cidr, 0) + cnt` on an
insertion-ordered dict. -/
def bump (l : List (String × Nat)) (k : String) (c : Nat) : List (String × Nat) :=
  if (l.find? (fun p => p.1 = k)).isSome then
    l.map (fun p => if p.1 = k then (p.1, p.2 + c) else p)
  else l ++ [(k, c)]

/-- Models `per_cluster.setdefault(cidr, Series())[ip] = cnt`. -/
def clusterAdd (l : List (String × List (String × Nat))) (k : String)
    (e : String × Nat) : List (String × List (String × Nat)) :=
  if (l.find? (fun p => p.1 = k)).isSome then
    l.map (fun p => if p.1 = k then (p.1, p.2 ++ [e]) else p)
  else l ++ [(k, [e])]

/-- Lines 147-151: group destination counts into /24 buckets. -/
def buildClusters (dst_ip_counts : List (String × Nat)) :
    List (String × Nat) × List (String × List (String × Nat)) :=
  dst_ip_counts.foldl
    (fun acc p => (bump acc.1 (ip_to24 p.1) p.2, clusterAdd acc.2 (ip_to24 p.1) p))
    ([], [])

/-- Models `per_cluster[cidr]` (present for every cluster key). -/
def lookupD (l : List (String × List (String × Nat))) (k : String) :
    List (String × Nat) :=
  ((l.find? (fun p => p.1 = k)).map (·.2)).getD []

/-- Models the percent formatting (format spec .0 percent) on the exact rational value: scale by 100
and round half to even (binary-float representation artifacts are not
modelled). -/
def formatPercent (q : ℚ) : String :=
  let x := q * 100
  let f : Int := ⌊x⌋
  let n : Int :=
    if (1:ℚ)/2 < x - (f:ℚ) then f + 1
    else if x - (f:ℚ) < 1/2 then f
    else if f % 2 = 0 then f else f + 1
  toString n ++ "%"

/-- The suggestion f-string of lines 166-169. -/
def renderRule (src_net dst_net port_list_str : String) (src_cov dst_cov : ℚ) :
    String :=
  "Allow " ++ src_net ++ " ➜ " ++ dst_net ++ " on [" ++ port_list_str ++ "] (src "
    ++ formatPercent src_cov ++ ", dst " ++ formatPercent dst_cov ++ ")"

/-- The anomaly note of lines 176-179; note that `' …'` is appended
unconditionally. -/
def rareNote (keys : List String) : String :=
  "Rare destination ports (<5 hits): " ++ String.intercalate ", " (keys.take 10) ++ " …"

/-- The emit loop of lines 159-173: per cluster, `_best_network` at
minimum prefix 20, dedup by network string, emit, and stop at the target
coverage or the rule cap. -/
def emitLoop (ip_thresh target_coverage : ℚ) (max_rules : Nat)
    (per_cluster : List (String × List (String × Nat)))
    (render : String → ℚ → String) (total_dst : ℚ) :
    List (String × Nat) → ℚ → List String → List String → List String
  | [], _, _, suggestions => suggestions
  | (cidr, bytes_in) :: rest, covered, seen, suggestions =>
    match best_network (lookupD per_cluster cidr) ip_thresh 20 with
    | (none, _) =>
      emitLoop ip_thresh target_coverage max_rules per_cluster render total_dst
        rest covered seen suggestions
    | (some dst_net, dst_cov) =>
      if dst_net ∈ seen then
        emitLoop ip_thresh target_coverage max_rules per_cluster render total_dst
          rest covered seen suggestions
      else
        if target_coverage ≤ (covered + (bytes_in : ℚ)) / total_dst
            ∨ max_rules ≤ (suggestions ++ [render dst_net dst_cov]).length then
          suggestions ++ [render dst_net dst_cov]
        else
          emitLoop ip_thresh target_coverage max_rules per_cluster render total_dst
            rest (covered + (bytes_in : ℚ)) (seen ++ [dst_net])
            (suggestions ++ [render dst_net dst_cov])

/-- The four accumulated frequency tables of a `FirewallAnalyzer`, each in
its pandas storage order. -/
structure AnalyzerState where
  src_ip_counts : List (String × Nat)
  dst_ip_counts : List (String × Nat)
  src_ports : List (String × Nat)
  dst_ports : List (String × Nat)

/-- Lines 146-173 of `rule_suggestions`: the destination clustering and
the emitted rule strings, before the anomaly note. -/
def mainSuggestions (st : AnalyzerState) (ip_thresh : ℚ) (max_ports : Nat)
    (min_port_share : ℚ) (max_rules : Nat) (target_coverage : ℚ) : List String :=
  emitLoop ip_thresh target_coverage max_rules (buildClusters st.dst_ip_counts).2
    (fun dst_net dst_cov =>
      renderRule (sourceScope st.src_ip_counts ip_thresh).1 dst_net
        (String.intercalate ", " (selectPorts st.dst_ports min_port_share max_ports))
        (sourceScope st.src_ip_counts ip_thresh).2 dst_cov)
    ((st.dst_ip_counts.map (·.2)).sum : Nat)
    (List.insertionSort countGe (buildClusters st.dst_ip_counts).1) 0 [] []

/-- Models `FirewallAnalyzer.rule_suggestions`: early return when no port meets
the minimum share, then the emitted rules, the anomaly note for ports seen
fewer than 5 times, and the final fallback message. -/
def rule_suggestions (st : AnalyzerState) (ip_thresh : ℚ) (max_ports : Nat)
    (min_port_share : ℚ) (max_rules : Nat) (target_coverage : ℚ) : List String :=
  let ports := selectPorts st.dst_ports min_port_share max_ports
  if ports = [] then ["No destination port exceeds the minimum share threshold."]
  else
    let suggestions :=
      mainSuggestions st ip_thresh max_ports min_port_share max_rules target_coverage
    let rare := (st.dst_ports.filter (fun p => p.2 < 5)).map (·.1)
    let final := if rare ≠ [] then suggestions ++ [rareNote rare] else suggestions
    if final = [] then ["No patterns met the thresholds."] else final

/-! Section: Ingestion: `_row_to_dict`, `_update_counts`, `consume_csv`

A row is a list of csv cells; a parsed record is an insertion-ordered
dict (association list with unique keys, later assignments overwriting).
`pd.DataFrame(list-of-dicts)` gives every record the union of the keys,
with missing cells becoming `NaN`, which `astype(str)` renders as the
string `"nan"` before `value_counts` — the model keeps that behaviour. -/

/-- One record extracted from a row: key/value pairs. -/
abbrev Record := List (String × String)

/-- Models `rec[k] = v` on a Python dict: overwrite in place or append. -/
def dictInsert (r : Record) (k v : String) : Record :=
  if (List.find? (fun p => p.1 = k) r).isSome then
    r.map (fun p => if p.1 = k then (k, v) else p)
  else r ++ [(k, v)]

/-- Models `str.strip(chars)`: drop the given characters from both ends. -/
def stripChars (s : String) (p : Char → Bool) : String :=
  String.mk (((s.toList.dropWhile p).reverse.dropWhile p).reverse)

/-- Models `FirewallAnalyzer._row_to_dict(row)`: keep `key=value` cells, split at
the first `=`, strip whitespace from the key and `"` / space from the
value. -/
def row_to_dict (row : List String) : Record :=
  row.foldl
    (fun r field =>
      if field.data.contains '=' then
        dictInsert r
          (stripChars (String.mk (field.toList.takeWhile (fun ch => ¬ ch = '=')))
            Char.isWhitespace)
          (stripChars (String.mk ((field.toList.dropWhile (fun ch => ¬ ch = '=')).drop 1))
            (fun ch => ch = '"' ∨ ch = ' '))
      else r)
    []

/-- The four running tables as total count functions. -/
structure Tables where
  src_ip : String → Nat
  dst_ip : String → Nat
  src_ports : String → Nat
  dst_ports : String → Nat

def initTables : Tables := ⟨fun _ => 0, fun _ => 0, fun _ => 0, fun _ => 0⟩

/-- One column of `pd.DataFrame(batch).astype(str)`: a record without the
key contributes the string `"nan"` (stringified `NaN`). -/
def colValues (batch : List Record) (col : String) : List String :=
  batch.map (fun r => ((List.find? (fun p => p.1 = col) r).map (·.2)).getD "nan")

/-- Models `store.add(df[col].astype(str).value_counts(), fill_value=0)` for one
column, a no-op when the column is absent from the batch's dataframe. -/
def updateCol (batch : List Record) (col : String) (store : String → Nat) :
    String → Nat :=
  if batch.any (fun r => (List.find? (fun p => p.1 = col) r).isSome) then
    fun k => store k + (colValues batch col).count k
  else store

/-- Models `FirewallAnalyzer._update_counts(df)` over the four columns. -/
def update_counts (batch : List Record) (tabs : Tables) : Tables :=
  { src_ip := updateCol batch "srcip" tabs.src_ip
    dst_ip := updateCol batch "dstip" tabs.dst_ip
    src_ports := updateCol batch "srcport" tabs.src_ports
    dst_ports := updateCol batch "dstport" tabs.dst_ports }

/-- Ingesting a list of batches in order. -/
def ingestBatches (batches : List (List Record)) : Tables :=
  batches.foldl (fun tabs b => update_counts b tabs) initTables

/-- The fallback row loop of `consume_csv` (lines 53-64): batch rows by
the 1-based row index modulo `chunksize` (bad rows occupy an index too),
flush on the boundary, and flush any final partial batch.  Returns the
flushed batches in order and the bad-row count. -/
def consumeLoop (cs : Nat) :
    List (List String) → Nat → List Record → List (List Record) → Nat →
      List (List Record) × Nat
  | [], _, batch, batches, bad =>
    (if batch ≠ [] then batches ++ [batch] else batches, bad)
  | row :: rest, i, batch, batches, bad =>
    if row_to_dict row ≠ [] then
      if i % cs = 0 then
        consumeLoop cs rest (i + 1) [] (batches ++ [batch ++ [row_to_dict row]]) bad
      else consumeLoop cs rest (i + 1) (batch ++ [row_to_dict row]) batches bad
    else
      if i % cs = 0 then
        consumeLoop cs rest (i + 1) [] (batches ++ [batch]) (bad + 1)
      else consumeLoop cs rest (i + 1) batch batches (bad + 1)

/-- Models the key=value path of `consume_csv` on a list of raw rows. -/
def consumeRows (cs : Nat) (rows : List (List String)) :
    List (List Record) × Nat :=
  consumeLoop cs rows 1 [] [] 0

/-- The records of the good rows, in order. -/
def goodRecs (rows : List (List String)) : List Record :=
  (rows.map row_to_dict).filter (fun r => ¬ r = [])

/-! Section: Claim theorems -/

/-- C1: for every non-empty list of parseable IP address strings,
`_supernet` terminates and returns a single network that contains every
input address (the prefix-widening loop bottoms out at worst at prefix
length 0, where everything is contained). -/
theorem C1_supernet_contains (l : List String) (hne : l ≠ [])
    (hall : ∀ s ∈ l, parseInput s ≠ none) :
    ∃ m : Net, supernet l = some (netToStr m) ∧ m.valid ∧
      ∀ s ∈ l, ∀ n, parseInput s = some n → SubnetOf n m :=
  supernet_spec hne hall

theorem C1_supernet_contains_witness :
    ∃ m : Net, supernet ["10.0.0.1", "10.0.0.2"] = some (netToStr m) ∧ m.valid ∧
      ∀ s ∈ ["10.0.0.1", "10.0.0.2"], ∀ n, parseInput s = some n → SubnetOf n m :=
  C1_supernet_contains ["10.0.0.1", "10.0.0.2"] (by decide) (by decide)

/-- C2: on a table in descending-weight order with positive counts,
`_threshold_subset` returns the smallest non-empty prefix of the key list
whose cumulative share reaches `t`, together with that share, which is at
least `t` — or the whole key list with share exactly 1 when the list is
exhausted first; an empty table yields `([], 0)`. -/
theorem C2_threshold_subset_spec (s : List (String × Nat)) (t : ℚ)
    (hsorted : List.Sorted countGe s) (hpos : ∀ p ∈ s, 0 < p.2) :
    (s = [] → threshold_subset s t = ([], 0)) ∧
    (s ≠ [] → ∃ k, 1 ≤ k ∧ k ≤ s.length ∧
      threshold_subset s t = ((keysOf s).take k, shareOf s k) ∧
      (∀ j, 1 ≤ j → j < k → shareOf s j < t) ∧
      (t ≤ shareOf s k ∨ (k = s.length ∧ shareOf s k = 1))) := by
  refine ⟨fun h => by subst h; rfl, fun hne => ?_⟩
  refine ⟨stepCount (totalOf s) t s 0, ?_, stepCount_le_length _ _ _ _,
    threshold_subset_eq hne t, ?_, ?_⟩
  · match s, hne with
    | p :: rest, _ => exact stepCount_pos _ _ _ _ _
  · intro j h1 h2
    have hmin := stepCount_min (totalOf s) t s 0 j h1 h2
    rw [zero_add] at hmin
    exact hmin
  · rcases stepCount_attain (totalOf s) t s 0 hne with hat | hat
    · rw [zero_add] at hat
      exact Or.inl hat
    · refine Or.inr ⟨hat, ?_⟩
      rw [hat]
      exact shareOf_full hne hpos

theorem C2_threshold_subset_spec_witness :
    threshold_subset [("192.168.1.1", 5)] 1 = (["192.168.1.1"], 1) := by
  obtain ⟨k, h1, h2, h3, _, _⟩ :=
    (C2_threshold_subset_spec [("192.168.1.1", 5)] 1 (by simp) (by decide)).2 (by decide)
  have hk : k = 1 := by
    simp at h2
    omega
  subst hk
  rw [h3]
  norm_num [keysOf, shareOf, sumTake, totalOf]

/-- C3: `_best_network` reports the achieved coverage in both outcomes,
and returns a network string only when its prefix length is at least the
configured minimum; otherwise it returns no network together with that
coverage. -/
theorem C3_best_network_policy (s : List (String × Nat)) (t : ℚ) (max_pref : Nat) :
    (best_network s t max_pref).2 = (threshold_subset s t).2 ∧
    (∀ str, (best_network s t max_pref).1 = some str →
      ∃ n, ipNetworkOfString str = some n ∧ max_pref ≤ n.plen) ∧
    ((best_network s t max_pref).1 = none →
      best_network s t max_pref = (none, (threshold_subset s t).2)) := by
  unfold best_network
  cases hn : (if (threshold_subset s t).1 = []
      then none else supernet (threshold_subset s t).1) with
  | none =>
    simp
  | some str =>
    simp only
    cases hp : ipNetworkOfString str with
    | none =>
      simp
    | some n =>
      simp only
      by_cases hpl : max_pref ≤ n.plen
      · rw [if_pos hpl]
        refine ⟨rfl, ?_, ?_⟩
        · intro str2 h
          simp at h
          subst h
          exact ⟨n, hp, hpl⟩
        · intro h
          simp at h
      · rw [if_neg hpl]
        simp

theorem C3_best_network_policy_witness :
    best_network [("garbage", 5)] (9/10) 21
      = (none, (threshold_subset [("garbage", 5)] (9/10)).2) := by
  apply (C3_best_network_policy [("garbage", 5)] (9/10) 21).2.2
  have h1 : threshold_subset [("garbage", 5)] ((9:ℚ)/10) = (["garbage"], 1) := by
    norm_num [threshold_subset, thresholdLoop, totalOf]
  have h2 : supernet ["garbage"] = none := by decide
  unfold best_network
  rw [h1]
  simp [h2]

/-- C4 (code bug): the same two records ingested as one batch versus as
two batches yield different source-IP tables — a record lacking a field
contributes a phantom `"nan"` key when batched together with a record
that has it (`pd.DataFrame` inserts `NaN`, `astype(str)` makes it the
string `"nan"`, and `value_counts` counts it). -/
theorem C4_batch_boundary_bug :
    (ingestBatches [[[("srcip", "1.1.1.1")], [("dstport", "80")]]]).src_ip "nan" = 1 ∧
    (ingestBatches [[[("srcip", "1.1.1.1")]], [[("dstport", "80")]]]).src_ip "nan" = 0 := by
  decide

/-- C5: raising the threshold can only grow the selected key set of
`_threshold_subset`, and the achieved coverage is non-decreasing in the
threshold. -/
theorem C5_threshold_monotone (s : List (String × Nat)) (t1 t2 : ℚ) (h12 : t1 ≤ t2) :
    (∀ x ∈ (threshold_subset s t1).1, x ∈ (threshold_subset s t2).1) ∧
    (threshold_subset s t1).2 ≤ (threshold_subset s t2).2 := by
  by_cases hne : s = []
  · subst hne
    rw [threshold_subset_nil, threshold_subset_nil]
    exact ⟨fun x hx => hx, le_refl _⟩
  · rw [threshold_subset_eq hne t1, threshold_subset_eq hne t2]
    have hK := stepCount_mono_t h12 (totalOf s) s 0
    constructor
    · intro x hx
      have hpre : (keysOf s).take (stepCount (totalOf s) t1 s 0)
          <+: (keysOf s).take (stepCount (totalOf s) t2 s 0) :=
        List.take_isPrefix_take.2 (Or.inl hK)
      exact hpre.sublist.subset hx
    · exact shareOf_mono s hK

theorem C5_threshold_monotone_witness :
    (∀ x ∈ (threshold_subset [("a", 9), ("b", 1)] (1/2)).1,
      x ∈ (threshold_subset [("a", 9), ("b", 1)] 1).1) ∧
    (threshold_subset [("a", 9), ("b", 1)] (1/2)).2
      ≤ (threshold_subset [("a", 9), ("b", 1)] 1).2 :=
  C5_threshold_monotone [("a", 9), ("b", 1)] (1/2) 1 (by norm_num)

/-- C6 (counterexample): with one parseable and one unparseable input,
`_supernet` returns `None` even though not every input failed to parse —
the unparseable string is not excluded; it aborts the whole aggregation,
so "None only if all inputs fail" is false on the code. -/
theorem C6_counterexample :
    supernet ["10.0.0.1", "x"] = none ∧
    ¬ (∀ s ∈ ["10.0.0.1", "x"], parseInput s = none) := by
  decide

/-- C6 (amended): `_supernet` returns no network exactly when at least one
input string fails to parse; a single bad input aborts the whole
aggregation rather than being excluded, and when every input parses the
aggregation always succeeds. -/
theorem C6_supernet_abort (l : List String) (hne : l ≠ []) :
    supernet l = none ↔ ∃ s ∈ l, parseInput s = none := by
  constructor
  · intro hn
    by_contra hex
    push_neg at hex
    obtain ⟨m, hm, _, _⟩ := supernet_spec hne hex
    rw [hn] at hm
    exact absurd hm (by simp)
  · rintro ⟨s, hs, hps⟩
    unfold supernet
    cases ht : traverseParse l with
    | none => rfl
    | some nets => exact absurd hps (traverseParse_all_some ht s hs)

theorem C6_supernet_abort_witness :
    supernet ["10.0.0.1", "x"] = none ↔
      ∃ s ∈ ["10.0.0.1", "x"], parseInput s = none :=
  C6_supernet_abort ["10.0.0.1", "x"] (by decide)

/-- C7 (counterexample): the source-IP table is iterated in its storage
order, which pandas does not keep count-sorted; on the stored table
`[("aaa", 1), ("zzz", 100)]` with threshold 9/10 the fallback joins both
stored keys ("aaa, zzz") although the highest-count address "zzz" alone
already reaches the threshold (100/101 ≥ 9/10) — so the fallback is not
the list of top (highest-count) addresses needed to reach the threshold. -/
theorem C7_storage_order_counterexample :
    (best_network [("aaa", 1), ("zzz", 100)] (9/10) 21).1 = none ∧
    sourceScope [("aaa", 1), ("zzz", 100)] (9/10) = ("aaa, zzz", 1) ∧
    (9:ℚ)/10 ≤ (100:ℚ)/101 ∧
    ("aaa, zzz" : String) ≠ "zzz" := by
  have hts : threshold_subset [("aaa", 1), ("zzz", 100)] ((9:ℚ)/10)
      = (["aaa", "zzz"], 1) := by
    norm_num [threshold_subset, thresholdLoop, totalOf]
  have hsup : supernet ["aaa", "zzz"] = none := by decide
  have hbn : (best_network [("aaa", 1), ("zzz", 100)] ((9:ℚ)/10) 21).1 = none := by
    unfold best_network
    rw [hts]
    simp [hsup]
  refine ⟨hbn, ?_, by norm_num, by decide⟩
  unfold sourceScope
  rw [hbn, hts]
  refine Prod.ext ?_ ?_
  · decide
  · rfl

/-- C7 (amended): whenever `_best_network` over the source table finds no
qualifying network, the source scope falls back to the comma-joined first
three addresses of the threshold-subset selection taken in the table's
storage order — an initial segment of the stored table, not necessarily
its highest-count entries — with "…" appended exactly when more than
three were selected, and the raw achieved coverage reported alongside. -/
theorem C7_source_fallback (src : List (String × Nat)) (t : ℚ)
    (hnone : (best_network src t 21).1 = none) :
    sourceScope src t =
      (String.intercalate ", " ((threshold_subset src t).1.take 3)
        ++ (if 3 < (threshold_subset src t).1.length then "…" else ""),
       (threshold_subset src t).2) ∧
    ∃ k, (threshold_subset src t).1 = (keysOf src).take k := by
  constructor
  · unfold sourceScope
    cases hb : (best_network src t 21).1 with
    | none => rfl
    | some net =>
      rw [hb] at hnone
      exact absurd hnone (by simp)
  · by_cases hne : src = []
    · subst hne
      refine ⟨0, ?_⟩
      rw [threshold_subset_nil]
      rfl
    · refine ⟨stepCount (totalOf src) t src 0, ?_⟩
      rw [threshold_subset_eq hne t]

theorem C7_source_fallback_witness :
    sourceScope [("zzz", 2), ("aaa", 1)] (9/10) = ("zzz, aaa", 1) := by
  have hts : threshold_subset [("zzz", 2), ("aaa", 1)] ((9:ℚ)/10) = (["zzz", "aaa"], 1) := by
    norm_num [threshold_subset, thresholdLoop, totalOf]
  have hbn : (best_network [("zzz", 2), ("aaa", 1)] ((9:ℚ)/10) 21).1 = none := by
    have h2 : supernet ["zzz", "aaa"] = none := by decide
    unfold best_network
    rw [hts]
    simp [h2]
  have h := (C7_source_fallback [("zzz", 2), ("aaa", 1)] (9/10) hbn).1
  rw [h, hts]
  refine Prod.ext ?_ ?_
  · decide
  · rfl

/-- For a descending-count list, the entries passing a count-monotone
predicate form an initial segment. -/
theorem filter_monotone_initial {l : List (String × Nat)}
    (hs : List.Sorted countGe l) (q : (String × Nat) → Bool)
    (hmono : ∀ a b : String × Nat, b.2 ≤ a.2 → q b = true → q a = true) :
    ∃ tail, l.filter q ++ tail = l := by
  induction l with
  | nil => exact ⟨[], rfl⟩
  | cons a t ih =>
    have hhead := (List.sorted_cons.1 hs).1
    have hst := (List.sorted_cons.1 hs).2
    by_cases hqa : q a = true
    · obtain ⟨tail, htail⟩ := ih hst
      refine ⟨tail, ?_⟩
      rw [List.filter_cons_of_pos hqa]
      rw [List.cons_append, htail]
    · have hft : t.filter q = [] := by
        rw [List.filter_eq_nil_iff]
        intro b hb
        intro hqb
        exact hqa (hmono a b (hhead b hb) hqb)
      refine ⟨a :: t, ?_⟩
      rw [List.filter_cons_of_neg (by simpa using hqa), hft]
      rfl

/-- C8: `rule_suggestions` ranks destination ports by descending count;
the qualifying ports (individual share at least `min_port_share`) form an
initial segment of that ranking, and the selection takes the first of
them up to `max_ports`; when none qualify (in particular on an empty
table) the whole call returns exactly the single no-port message and no
rule strings. -/
theorem C8_port_selection (st : AnalyzerState) (ip_thresh : ℚ) (max_ports : Nat)
    (min_port_share : ℚ) (max_rules : Nat) (target_coverage : ℚ) :
    (List.insertionSort countGe st.dst_ports).Perm st.dst_ports ∧
    List.Sorted countGe (List.insertionSort countGe st.dst_ports) ∧
    (∃ tail,
      (List.insertionSort countGe st.dst_ports).filter
          (fun p => min_port_share ≤ (p.2 : ℚ)
            / (((List.insertionSort countGe st.dst_ports).map (·.2)).sum : Nat)) ++ tail
        = List.insertionSort countGe st.dst_ports) ∧
    selectPorts st.dst_ports min_port_share max_ports
      = (((List.insertionSort countGe st.dst_ports).filter
            (fun p => min_port_share ≤ (p.2 : ℚ)
              / (((List.insertionSort countGe st.dst_ports).map (·.2)).sum : Nat))).map
          (·.1)).take max_ports ∧
    (selectPorts st.dst_ports min_port_share max_ports).length ≤ max_ports ∧
    (selectPorts st.dst_ports min_port_share max_ports = [] →
      rule_suggestions st ip_thresh max_ports min_port_share max_rules target_coverage
        = ["No destination port exceeds the minimum share threshold."]) := by
  refine ⟨List.perm_insertionSort countGe st.dst_ports,
    List.sorted_insertionSort countGe st.dst_ports, ?_, rfl, ?_, ?_⟩
  · apply filter_monotone_initial (List.sorted_insertionSort countGe st.dst_ports)
    intro a b hba hqb
    simp only [decide_eq_true_eq] at hqb ⊢
    set T : ℚ := ((((List.insertionSort countGe st.dst_ports).map (·.2)).sum : Nat) : ℚ) with hT
    have hT0 : (0:ℚ) ≤ T := Nat.cast_nonneg _
    rcases eq_or_lt_of_le hT0 with h0 | h0
    · rw [← h0] at hqb ⊢
      simpa using hqb
    · refine le_trans hqb ?_
      exact (div_le_div_right h0).2 (by exact_mod_cast hba)
  · unfold selectPorts
    exact List.length_take_le _ _
  · intro h
    unfold rule_suggestions
    rw [if_pos h]

theorem C8_port_selection_witness :
    rule_suggestions ⟨[], [], [], []⟩ (9/10) 3 (1/100) 10 (4/5)
      = ["No destination port exceeds the minimum share threshold."] :=
  (C8_port_selection ⟨[], [], [], []⟩ (9/10) 3 (1/100) 10 (4/5)).2.2.2.2.2 (by decide)

/-- C9 (counterexample): with the single destination port "81" seen once,
`rule_suggestions` emits the anomaly note ending in " …" although only one
(≤ 10) rare port exists — the ellipsis is appended unconditionally
(line 179), not only when more than 10 rare ports exist. -/
theorem C9_ellipsis_counterexample :
    rule_suggestions ⟨[], [], [], [("81", 1)]⟩ (9/10) 3 (1/100) 10 (4/5)
      = ["Rare destination ports (<5 hits): 81 …"] ∧
    (([("81", 1)] : List (String × Nat)).filter (fun p => p.2 < 5)).length ≤ 10 ∧
    "Rare destination ports (<5 hits): 81 …" ≠ "Rare destination ports (<5 hits): 81" := by
  refine ⟨?_, by decide, by decide⟩
  have hports : selectPorts [("81", 1)] ((1:ℚ)/100) 3 = ["81"] := by
    norm_num [selectPorts, List.insertionSort, List.orderedInsert]
  have hmain : mainSuggestions ⟨[], [], [], [("81", 1)]⟩ ((9:ℚ)/10) 3 ((1:ℚ)/100) 10 ((4:ℚ)/5)
      = [] := by
    unfold mainSuggestions
    simp [buildClusters, emitLoop, List.insertionSort]
  unfold rule_suggestions
  rw [if_neg (show ¬ selectPorts [("81", 1)] ((1:ℚ)/100) 3 = [] by rw [hports]; simp)]
  rw [hmain]
  simp only [List.filter, List.map]
  norm_num [rareNote]
  decide

/-- C9 (amended): when the port-selection step selects at least one port,
`rule_suggestions` appends an anomaly note listing the first at most 10
(in table order) destination ports with count below 5, always ending in
" …"; when no destination port has count below 5 the note is omitted
entirely (the list is just the emitted rules, or the no-patterns message
when empty). -/
theorem C9_anomaly_note (st : AnalyzerState) (ip_thresh : ℚ) (max_ports : Nat)
    (min_port_share : ℚ) (max_rules : Nat) (target_coverage : ℚ)
    (hports : ¬ selectPorts st.dst_ports min_port_share max_ports = []) :
    ((st.dst_ports.filter (fun p => p.2 < 5)).map (·.1) ≠ [] →
      rule_suggestions st ip_thresh max_ports min_port_share max_rules target_coverage
        = mainSuggestions st ip_thresh max_ports min_port_share max_rules target_coverage
          ++ ["Rare destination ports (<5 hits): "
              ++ String.intercalate ", "
                  (((st.dst_ports.filter (fun p => p.2 < 5)).map (·.1)).take 10)
              ++ " …"]) ∧
    ((st.dst_ports.filter (fun p => p.2 < 5)).map (·.1) = [] →
      rule_suggestions st ip_thresh max_ports min_port_share max_rules target_coverage
        = (if mainSuggestions st ip_thresh max_ports min_port_share max_rules target_coverage
              = []
           then ["No patterns met the thresholds."]
           else mainSuggestions st ip_thresh max_ports min_port_share max_rules
                  target_coverage)) := by
  constructor
  · intro hrare
    unfold rule_suggestions
    simp only []
    rw [if_neg hports, if_pos hrare, if_neg (by simp)]
    rfl
  · intro hrare
    unfold rule_suggestions
    simp only []
    rw [if_neg hports,
      if_neg (show ¬ ((st.dst_ports.filter (fun p => p.2 < 5)).map (·.1) ≠ []) by
        simp [hrare])]

theorem C9_anomaly_note_witness :
    rule_suggestions ⟨[], [], [], [("81", 1)]⟩ (9/10) 3 (1/100) 10 (4/5)
      = mainSuggestions ⟨[], [], [], [("81", 1)]⟩ (9/10) 3 (1/100) 10 (4/5)
        ++ ["Rare destination ports (<5 hits): "
            ++ String.intercalate ", "
                (((([("81", 1)] : List (String × Nat)).filter (fun p => p.2 < 5)).map
                  (·.1)).take 10)
            ++ " …"] := by
  have hports : ¬ selectPorts ([("81", 1)] : List (String × Nat)) ((1:ℚ)/100) 3 = [] := by
    have h : selectPorts [("81", 1)] ((1:ℚ)/100) 3 = ["81"] := by
      norm_num [selectPorts, List.insertionSort, List.orderedInsert]
    rw [h]
    simp
  exact (C9_anomaly_note ⟨[], [], [], [("81", 1)]⟩ (9/10) 3 (1/100) 10 (4/5) hports).1
    (by decide)

theorem dictInsert_ne_nil (r : Record) (k v : String) : dictInsert r k v ≠ [] := by
  unfold dictInsert
  split
  · rename_i hf
    intro hc
    rw [List.map_eq_nil_iff] at hc
    rw [hc] at hf
    simp at hf
  · simp

theorem row_to_dict_foldl_ne_nil (row : List String) (acc : Record) (hacc : acc ≠ []) :
    row.foldl
      (fun r field =>
        if field.data.contains '=' then
          dictInsert r
            (stripChars (String.mk (field.toList.takeWhile (fun ch => ¬ ch = '=')))
              Char.isWhitespace)
            (stripChars
              (String.mk ((field.toList.dropWhile (fun ch => ¬ ch = '=')).drop 1))
              (fun ch => ch = '"' ∨ ch = ' '))
        else r)
      acc ≠ [] := by
  induction row generalizing acc with
  | nil => exact hacc
  | cons f rest ih =>
    rw [List.foldl_cons]
    by_cases hf : f.data.contains '='
    · rw [if_pos hf]
      exact ih _ (dictInsert_ne_nil _ _ _)
    · rw [if_neg hf]
      exact ih _ hacc

/-- A row yields no record exactly when none of its cells contains `=`. -/
theorem row_to_dict_empty_iff (row : List String) :
    row_to_dict row = [] ↔ ∀ field ∈ row, ¬ field.data.contains '=' = true := by
  unfold row_to_dict
  induction row with
  | nil => simp
  | cons f rest ih =>
    rw [List.foldl_cons]
    by_cases hf : f.data.contains '='
    · rw [if_pos hf]
      constructor
      · intro hc
        exact absurd hc (row_to_dict_foldl_ne_nil rest _ (dictInsert_ne_nil _ _ _))
      · intro hall
        exact absurd hf (hall f (List.mem_cons_self _ _))
    · rw [if_neg hf]
      rw [ih]
      constructor
      · intro hall g hg
        rcases List.mem_cons.1 hg with hg | hg
        · subst hg; exact hf
        · exact hall g hg
      · intro hall g hg
        exact hall g (List.mem_cons_of_mem _ hg)

theorem consumeLoop_spec (cs : Nat) (rows : List (List String)) :
    ∀ (i : Nat) (batch : List Record) (batches : List (List Record)) (bad : Nat),
      (consumeLoop cs rows i batch batches bad).2
        = bad + (rows.filter (fun r => row_to_dict r = [])).length ∧
      (consumeLoop cs rows i batch batches bad).1.flatten
        = batches.flatten ++ batch ++ goodRecs rows := by
  induction rows with
  | nil =>
    intro i batch batches bad
    unfold consumeLoop
    refine ⟨by simp, ?_⟩
    by_cases hb : batch = []
    · subst hb
      rw [if_neg (by simp)]
      simp [goodRecs]
    · rw [if_pos (by simpa using hb)]
      simp [goodRecs]
  | cons row rest ih =>
    intro i batch batches bad
    unfold consumeLoop
    by_cases hrec : row_to_dict row = []
    · rw [if_neg (by simpa using hrec)]
      have hfc : (List.filter (fun r => decide (row_to_dict r = [])) (row :: rest))
          = row :: List.filter (fun r => decide (row_to_dict r = [])) rest := by
        rw [List.filter_cons_of_pos (by simpa using hrec)]
      have hgc : goodRecs (row :: rest) = goodRecs rest := by
        unfold goodRecs
        simp only [List.map_cons]
        rw [List.filter_cons_of_neg (by simpa using hrec)]
      by_cases hi : i % cs = 0
      · rw [if_pos hi]
        obtain ⟨h1, h2⟩ := ih (i + 1) [] (batches ++ [batch]) (bad + 1)
        refine ⟨?_, ?_⟩
        · rw [h1, hfc]
          simp
          omega
        · rw [h2, hgc]
          simp
      · rw [if_neg hi]
        obtain ⟨h1, h2⟩ := ih (i + 1) batch batches (bad + 1)
        refine ⟨?_, ?_⟩
        · rw [h1, hfc]
          simp
          omega
        · rw [h2, hgc]
    · rw [if_pos (by simpa using hrec)]
      have hfc : (List.filter (fun r => decide (row_to_dict r = [])) (row :: rest))
          = List.filter (fun r => decide (row_to_dict r = [])) rest := by
        rw [List.filter_cons_of_neg (by simpa using hrec)]
      have hgc : goodRecs (row :: rest) = row_to_dict row :: goodRecs rest := by
        unfold goodRecs
        simp only [List.map_cons]
        rw [List.filter_cons_of_pos (by simpa using hrec)]
      by_cases hi : i % cs = 0
      · rw [if_pos hi]
        obtain ⟨h1, h2⟩ := ih (i + 1) [] (batches ++ [batch ++ [row_to_dict row]]) bad
        refine ⟨?_, ?_⟩
        · rw [h1, hfc]
        · rw [h2, hgc]
          simp
      · rw [if_neg hi]
        obtain ⟨h1, h2⟩ := ih (i + 1) (batch ++ [row_to_dict row]) batches bad
        refine ⟨?_, ?_⟩
        · rw [h1, hfc]
        · rw [h2, hgc]
          simp

/-- C10: over the key=value ingestion path, the bad-row counter ends at
exactly the number of rows yielding no extractable field (rows with at
least one `key=value` cell never increment it), while the records that
reach the frequency tables are exactly the good rows' records in order —
a bad row contributes no record to any batch and processing continues
with the next row. -/
theorem C10_bad_row_accounting (cs : Nat) (rows : List (List String)) :
    (consumeRows cs rows).2 = (rows.filter (fun r => row_to_dict r = [])).length ∧
    (consumeRows cs rows).1.flatten = goodRecs rows ∧
    (∀ row ∈ rows, (row_to_dict row = [] ↔ ∀ field ∈ row, ¬ field.data.contains '=' = true)) := by
  obtain ⟨h1, h2⟩ := consumeLoop_spec cs rows 1 [] [] 0
  refine ⟨by simpa using h1, by simpa using h2, fun row _ => row_to_dict_empty_iff row⟩

theorem C10_bad_row_accounting_witness :
    (consumeRows 2 [["srcip=1.1.1.1"], ["garbage"], ["dstport=80"]]).2 = 1 ∧
    (consumeRows 2 [["srcip=1.1.1.1"], ["garbage"], ["dstport=80"]]).1.flatten
      = goodRecs [["srcip=1.1.1.1"], ["garbage"], ["dstport=80"]] := by
  have h := C10_bad_row_accounting 2 [["srcip=1.1.1.1"], ["garbage"], ["dstport=80"]]
  refine ⟨?_, h.2.1⟩
  rw [h.1]
  decide
